import Mathlib

/-!
# Verification of the kiro-telegram-bot interactive session bridge

A shallow embedding of the repository's core code:

* `kiro_interactive.py` — the ANSI stripper `_strip_ansi`, the prompt
  classifier `_looks_like_prompt` (with `_PROMPT_RE`), the reply poller
  `_poll_telegram_reply`, and the PTY session loop `run_kiro_interactive`;
* `folder_monitor.py` — the PII redactor `redact_pii` with `_PII_PATTERNS`.

Text is modelled as `List Char`.  Python regular expressions are embedded as
hand-written executable matchers that follow the backtracking semantics of
`re` on the concrete patterns of the source.  The session loop is embedded as
a deterministic step function over an environment trace (`Tick`s describe
what the child process and the clock do at each iteration of the polling
loop; the Telegram channel is the list of updates that arrive in time).
-/

namespace KiroBot

/-! ## Character classes (ASCII fragment of Python's `str` / `re` classes) -/

/-- ASCII whitespace: the characters Python's `str.strip()` and the regex
class `\s` treat as whitespace. -/
def isSpaceChar (c : Char) : Bool :=
  c = ' ' || c = '\t' || c = '\n' || c = '\r' || c = '\x0b' || c = '\x0c'


/-- ASCII upper-case letter. -/
def isUpperChar (c : Char) : Bool := 'A' ≤ c && c ≤ 'Z'


/-- ASCII lower-case letter. -/
def isLowerChar (c : Char) : Bool := 'a' ≤ c && c ≤ 'z'


/-- ASCII letter, the class `[A-Za-z]`. -/
def isAlphaChar (c : Char) : Bool := isUpperChar c || isLowerChar c


/-- ASCII digit, the class `\d`. -/
def isDigitChar (c : Char) : Bool := '0' ≤ c && c ≤ '9'


/-- The regex word class `\w` (ASCII fragment), deciding `\b` boundaries. -/
def isWordChar (c : Char) : Bool := isAlphaChar c || isDigitChar c || c = '_'


/-- Wordness of an optional character; `none` (start/end of string) counts as
non-word, matching how `\b` behaves at the edges of the input. -/
def isWordOpt : Option Char → Bool
  | some c => isWordChar c
  | none => false


/-- `\b` between a previous character `p` and a next character `c`: the two
sides differ in wordness. -/
def boundary (p : Option Char) (c : Option Char) : Bool :=
  isWordOpt p != isWordOpt c


/-! ## Python string helpers -/

/-- Python `str.rstrip()` restricted to one character `a`. -/
def rstripChar (a : Char) (l : List Char) : List Char :=
  (l.reverse.dropWhile (fun c => c = a)).reverse


/-- Python `str.rstrip()` with the default whitespace set. -/
def rstripWS (l : List Char) : List Char :=
  (l.reverse.dropWhile isSpaceChar).reverse


/-- Python `str.strip()` with the default whitespace set. -/
def pyStrip (l : List Char) : List Char :=
  rstripWS (l.dropWhile isSpaceChar)


/-- Python `str.split('\n')`: split on every newline, keeping empty pieces. -/
def splitNl : List Char → List (List Char)
  | [] => [[]]
  | c :: rest =>
    if c = '\n' then [] :: splitNl rest
    else
      match splitNl rest with
      | [] => [[c]]
      | l :: ls => (c :: l) :: ls


/-! ## `_strip_ansi` — the regex `\x1b\[[0-9;]*[mGKHFJA-Za-z]`

`re.sub` scans left to right; at an ESC that is not followed by a complete
escape sequence the scan moves on by one character.  The character class
`[mGKHFJA-Za-z]` is every ASCII letter. -/

/-- Characters of the escape body, the class `[0-9;]`. -/
def isAnsiParam (c : Char) : Bool := isDigitChar c || c = ';'


/-- Scanner state while removing escape sequences: `plain` is outside any
candidate match, `esc` has just read `\x1b`, and `escbr ps` has read
`\x1b[` followed by the body characters `ps` (reversed). -/
inductive AnsiState
  | plain
  | esc
  | escbr (ps : List Char)


/-- Left-to-right scan of `re.sub` for `\x1b\[[0-9;]*[mGKHFJA-Za-z]`: a
complete sequence (`\x1b[`, then digits/semicolons, then a letter) is
dropped; at an incomplete one the scan emits the consumed characters and
resumes — no other position can start a match inside them, because a match
can only start at `\x1b`. -/
def goAnsi : AnsiState → List Char → List Char
  | .plain, [] => []
  | .esc, [] => ['\x1b']
  | .escbr ps, [] => '\x1b' :: '[' :: ps.reverse
  | .plain, c :: rest =>
    if c = '\x1b' then goAnsi .esc rest else c :: goAnsi .plain rest
  | .esc, c :: rest =>
    if c = '[' then goAnsi (.escbr []) rest
    else if c = '\x1b' then '\x1b' :: goAnsi .esc rest
    else '\x1b' :: c :: goAnsi .plain rest
  | .escbr ps, c :: rest =>
    if isAnsiParam c then goAnsi (.escbr (c :: ps)) rest
    else if isAlphaChar c then goAnsi .plain rest
    else if c = '\x1b' then '\x1b' :: '[' :: ps.reverse ++ goAnsi .esc rest
    else '\x1b' :: '[' :: ps.reverse ++ c :: goAnsi .plain rest


/-- `_strip_ansi`: remove every occurrence of `\x1b\[[0-9;]*[mGKHFJA-Za-z]`. -/
def stripAnsi (l : List Char) : List Char := goAnsi .plain l


/-! ## `_PROMPT_RE` and `_looks_like_prompt`

`_PROMPT_RE` is an `re.IGNORECASE` alternation searched anywhere in the last
non-blank line.  Each alternative is embedded as a predicate on the suffix
starting at the match position; `searchPred` is `re.search` (does any
position match). -/

/-- One alternative shape `c\s*$`: the character `c` followed by nothing but
whitespace (`\?\s*$`, `>\s*$`, `:\s*$`). -/
def trailingBranch (c : Char) : List Char → Bool
  | a :: t => a = c && t.all isSpaceChar
  | [] => false


/-- Case-insensitive literal prefix test: `pat` is given in lower case, the
text is lowered character by character (`re.IGNORECASE`). -/
def startsWithLower (pat : List Char) (l : List Char) : Bool :=
  match pat, l with
  | [], _ => true
  | _ :: _, [] => false
  | p :: ps, c :: cs => (c.toLower = p) && startsWithLower ps cs


/-- The regex fragment `\s+\S`: at least one whitespace character followed by
a non-whitespace character. -/
def wsThenNonWs : List Char → Bool
  | c :: rest => isSpaceChar c && !(rest.dropWhile isSpaceChar).isEmpty
  | [] => false


/-- Does some alternative of `_PROMPT_RE` match at this position? -/
def promptAt (s : List Char) : Bool :=
  trailingBranch '?' s
  || startsWithLower "(y/n)".toList s
  || startsWithLower "(y|n)".toList s
  || startsWithLower "yes/no".toList s
  || trailingBranch '>' s
  || (startsWithLower "enter".toList s && wsThenNonWs (s.drop 5))
  || (startsWithLower "choose".toList s && wsThenNonWs (s.drop 6))
  || (startsWithLower "please".toList s && wsThenNonWs (s.drop 6))
  || (startsWithLower "input".toList s && wsThenNonWs (s.drop 5))
  || trailingBranch ':' s


/-- `re.search`: does `p` hold at some position of the text? -/
def searchPred (p : List Char → Bool) : List Char → Bool
  | [] => false
  | c :: t => p (c :: t) || searchPred p t


/-- The last non-blank line, carriage returns stripped from its right —
`next((l.rstrip('\r') for l in reversed(lines) if l.strip()), '')`. -/
def lastNonBlankLine (lines : List (List Char)) : List Char :=
  match lines.reverse.find? (fun l => !(pyStrip l).isEmpty) with
  | some l => rstripChar '\r' l
  | none => []


/-- `_looks_like_prompt`, translated clause by clause from the source. -/
def looksLikePrompt (text : List Char) : Bool :=
  let clean := stripAnsi text
  if (pyStrip clean).isEmpty then false
  else if !((rstripChar '\r' clean).getLast? == some '\n') then true
  else searchPred promptAt (lastNonBlankLine (splitNl clean))


/-! ### The classifier restated in the words of the specification (claim C1)

The spec describes the decision policy as: whitespace-only → false; no
trailing line terminator → true; otherwise the last non-blank line matches a
listed pattern.  The trailing patterns are stated as "trailing `?`",
"trailing `>`", "trailing `:`" — i.e. the last character once trailing
whitespace is removed — and the markers as occurring anywhere on the line. -/

/-- Trailing-character pattern of the spec: the line's last character, after
discarding trailing whitespace, is `a`. -/
def trailingAfterWS (a : Char) (l : List Char) : Bool :=
  (rstripWS l).getLast? == some a


/-- The spec's "contains, case-insensitively": some drop position starts with
the (lower-case) pattern. -/
def containsCI (pat : List Char) (l : List Char) : Bool :=
  (List.range (l.length + 1)).any fun i => startsWithLower pat (l.drop i)


/-- The spec's "keyword followed by non-space content": at some position the
keyword occurs, followed by whitespace and then a non-space character. -/
def kwThenContent (kw : List Char) (l : List Char) : Bool :=
  (List.range (l.length + 1)).any fun i =>
    startsWithLower kw (l.drop i) && wsThenNonWs (l.drop (i + kw.length))


/-- The prompt-pattern list exactly as the specification enumerates it. -/
def promptPatternSpec (l : List Char) : Bool :=
  trailingAfterWS '?' l
  || containsCI "(y/n)".toList l
  || containsCI "(y|n)".toList l
  || containsCI "yes/no".toList l
  || trailingAfterWS '>' l
  || kwThenContent "enter".toList l
  || kwThenContent "choose".toList l
  || kwThenContent "please".toList l
  || kwThenContent "input".toList l
  || trailingAfterWS ':' l


/-- The classifier as the specification words it: empty/whitespace-only →
false; stripped text not ending in a line terminator (a newline, ignoring
trailing carriage returns) → true; otherwise whether the last non-blank line
matches one of the enumerated prompt patterns. -/
def looksLikePromptSpec (text : List Char) : Bool :=
  let clean := stripAnsi text
  if (pyStrip clean).isEmpty then false
  else if !((rstripChar '\r' clean).getLast? == some '\n') then true
  else promptPatternSpec (lastNonBlankLine (splitNl clean))


/-! ## `_poll_telegram_reply`

A Telegram update is a sequence identifier plus an optional message; the
channel is the ordered list of updates that arrive before the poll deadline.
The code requests updates with `offset = after_id + 1` (Telegram returns all
updates with `update_id ≥ offset`, in increasing order), walks them in order,
and returns the first whose chat id matches and whose stripped text is
non-empty; on timeout it returns `(None, after_id)`. -/

/-- A Telegram message: originating chat id (as the string the code compares
with `str(chat_id)`) and text. -/
structure TgMessage where
  chatId : List Char
  text : List Char
deriving DecidableEq, Repr


/-- A Telegram update: `update_id` plus an optional message. -/
structure TgUpdate where
  update_id : Nat
  message : Option TgMessage
deriving DecidableEq, Repr


/-- `str(msg.get('chat', {}).get('id', ''))`: the empty string when the
update carries no message. -/
def msgChatId (u : TgUpdate) : List Char :=
  match u.message with
  | some m => m.chatId
  | none => []


/-- `msg.get('text', '')`. -/
def msgText (u : TgUpdate) : List Char :=
  match u.message with
  | some m => m.text
  | none => []


/-- The reply filter of the loop body: chat id matches and the stripped text
is non-empty. -/
def qualifies (chat : List Char) (u : TgUpdate) : Bool :=
  msgChatId u = chat && !(pyStrip (msgText u)).isEmpty


/-- Walk the fetched updates in order; return the first qualifying stripped
text together with its `update_id`. -/
def findReply (chat : List Char) : List TgUpdate → Option (List Char × Nat)
  | [] => none
  | u :: rest =>
    if qualifies chat u then some (pyStrip (msgText u), u.update_id)
    else findReply chat rest


/-- `_poll_telegram_reply`: only updates with `update_id > after_id` are
fetched (`offset = after_id + 1`); the first qualifying reply is returned
with its identifier, and on timeout (no qualifying update arrives in time)
the result is `(none, after_id)`. -/
def pollTelegramReply (channel : List TgUpdate) (chat : List Char) (after_id : Nat) :
    Option (List Char) × Nat :=
  match findReply chat (channel.filter fun u => after_id + 1 ≤ u.update_id) with
  | some (t, uid) => (some t, uid)
  | none => (none, after_id)


/-- The example channel of the claim: replies `{5: "yes", 6: "no"}`. -/
def exampleChannel : List TgUpdate :=
  [⟨5, some ⟨"77".toList, "yes".toList⟩⟩, ⟨6, some ⟨"77".toList, "no".toList⟩⟩]


/-! ## `run_kiro_interactive` — the PTY session loop

One `Tick` describes what the environment does during one iteration of the
`while time.time() < deadline` loop: whether `proc.poll()` reports exit at
the top, the chunks `os.read` yields while draining (an empty chunk is the
EOF the code folds into `exited`, as is an `OSError`, modelled by
`readEof`), whether the measured silence has reached `SILENCE_THRESHOLD`,
and whether a write of a reply to the child's stdin would succeed.  The
overall wall-clock deadline expiring is the tick list running out.  The
`finally` block's behaviour is determined by whether the child is still
alive there (`aliveAtFinally`) and whether it exits within the 5-second
grace period of `proc.wait` (`gracefulStop`). -/

/-- Process-termination calls issued on the child, in order. -/
inductive TermAction
  | terminate
  | kill
deriving DecidableEq, Repr


/-- The reasons the code assigns `silence_checked = False`. -/
inductive ResetReason
  | newData
  | replyWritten
deriving DecidableEq, Repr


/-- How the session ended. -/
inductive ExitKind
  | completed
  | replyTimeout
  | writeError
  | deadline
  | launchFailure
deriving DecidableEq, Repr


/-- One iteration of the polling loop, as driven by the environment. -/
structure Tick where
  procExited : Bool
  chunks : List (List Char)
  readEof : Bool
  silenceElapsed : Bool
  writeOk : Bool
deriving DecidableEq, Repr


/-- The inner drain loop: concatenate the available chunks; an empty chunk
is EOF (`if not chunk: exited = True; break`), discarding nothing read so
far but stopping the drain. -/
def drainChunks : List (List Char) → List Char × Bool
  | [] => ([], false)
  | c :: rest =>
    if c.isEmpty then ([], true)
    else
      let (d, e) := drainChunks rest
      (c ++ d, e)


/-- The loop's mutable state. -/
structure LoopState where
  full_output : List Char
  pending_buf : List Char
  silence_checked : Bool
  last_update_id : Nat
  notes : List (List Char)
  termActions : List TermAction
deriving DecidableEq, Repr


/-- The outcome of one iteration: the new state, whether the loop breaks
(and how), whether the silence check fired, which `silence_checked = False`
assignments ran, and whether `pending_buf` was cleared. -/
structure StepOut where
  state : LoopState
  exit : Option ExitKind
  fired : Bool
  resets : List ResetReason
  cleared : Bool
deriving DecidableEq, Repr


/-- What `_send_telegram` actually sends: ANSI codes stripped and the text
truncated to Telegram's 4096-character limit. -/
def sentNote (msg : List Char) : List Char := (stripAnsi msg).take 4096


/-- The prompt-forwarding message `f'Kiro asks:\n\n{...}'`. -/
def kiroAsksMsg (pending : List Char) : List Char :=
  "Kiro asks:\n\n".toList ++ pyStrip (stripAnsi pending)


/-- The timeout notification text. -/
def timeoutNote : List Char :=
  "No reply received within the timeout window — terminating Kiro session.".toList


/-- The data the drain loop appends this iteration. -/
def drainData (t : Tick) : List Char := (drainChunks t.chunks).1


/-- `exited` after the drain: `proc.poll()` reported exit, or a read error
or EOF was seen while draining. -/
def exitedCond (t : Tick) : Bool := t.procExited || t.readEof || (drainChunks t.chunks).2


/-- `got_data` after the drain. -/
def gotDataB (t : Tick) : Bool := !(drainData t).isEmpty


/-- The state after the drain loop: data appended to both buffers, the
silence flag re-armed when data arrived. -/
def drainState (t : Tick) (st : LoopState) : LoopState :=
  { st with
      full_output := st.full_output ++ drainData t
      pending_buf := st.pending_buf ++ drainData t
      silence_checked := if gotDataB t then false else st.silence_checked }


/-- The `silence_checked = False` assignments performed while draining. -/
def drainResets (t : Tick) : List ResetReason := if gotDataB t then [.newData] else []

@[simp] theorem drainState_full_output (t : Tick) (st : LoopState) :
    (drainState t st).full_output = st.full_output ++ drainData t := rfl

@[simp] theorem drainState_pending_buf (t : Tick) (st : LoopState) :
    (drainState t st).pending_buf = st.pending_buf ++ drainData t := rfl

@[simp] theorem drainState_last_update_id (t : Tick) (st : LoopState) :
    (drainState t st).last_update_id = st.last_update_id := rfl

@[simp] theorem drainState_notes (t : Tick) (st : LoopState) :
    (drainState t st).notes = st.notes := rfl

@[simp] theorem drainState_termActions (t : Tick) (st : LoopState) :
    (drainState t st).termActions = st.termActions := rfl


/-- The guard of the silence check: no data this iteration, the silence
threshold reached, a non-empty pending buffer, and the one-shot flag not
yet set. -/
def silenceCond (t : Tick) (st : LoopState) : Bool :=
  !gotDataB t && t.silenceElapsed && !(drainState t st).pending_buf.isEmpty
    && !(drainState t st).silence_checked


/-- One iteration of the loop body of `run_kiro_interactive`, lines 266-344
of the source: drain, exit check, silence check, prompt handling. -/
def step (chat : List Char) (channel : List TgUpdate) (t : Tick) (st : LoopState) :
    StepOut :=
  let st1 := drainState t st
  if exitedCond t then
    ⟨st1, some .completed, false, drainResets t, false⟩
  else if silenceCond t st then
    let st2 := { st1 with silence_checked := true }
    if looksLikePrompt st2.pending_buf then
      let st3 := { st2 with
        notes := st2.notes ++ [sentNote (kiroAsksMsg st2.pending_buf)] }
      match pollTelegramReply channel chat st3.last_update_id with
      | (some _reply, newId) =>
        if t.writeOk then
          ⟨{ st3 with
              last_update_id := newId
              pending_buf := []
              silence_checked := false },
            none, true, drainResets t ++ [.replyWritten], true⟩
        else
          ⟨{ st3 with last_update_id := newId }, some .writeError, true, drainResets t, false⟩
      | (none, newId) =>
        ⟨{ st3 with
            last_update_id := newId
            notes := st3.notes ++ [sentNote timeoutNote]
            termActions := st3.termActions ++ [.terminate] },
          some .replyTimeout, true, drainResets t, false⟩
    else ⟨st2, none, true, drainResets t, false⟩
  else ⟨st1, none, false, drainResets t, false⟩


/-- The polling loop: run ticks until a break; the tick list running out is
the overall deadline expiring (`while time.time() < deadline`). -/
def runLoop (chat : List Char) (channel : List TgUpdate) :
    List Tick → LoopState → LoopState × ExitKind
  | [], st => (st, .deadline)
  | t :: rest, st =>
    let o := step chat channel t st
    match o.exit with
    | some k => (o.state, k)
    | none => runLoop chat channel rest o.state


/-- How `subprocess.Popen` goes. -/
inductive SpawnOutcome
  | ok
  | notFound
  | failed (msg : List Char)
deriving DecidableEq, Repr


/-- The environment of one session. -/
structure Env where
  spawn : SpawnOutcome
  chatId : List Char
  channel : List TgUpdate
  ticks : List Tick
  aliveAtFinally : Bool
  gracefulStop : Bool
deriving DecidableEq, Repr


/-- Everything `run_kiro_interactive` returns or does that the claims talk
about: the returned pair (`output`, `last_update_id`), how the session
ended, the notifications sent, the termination calls issued, whether the
PTY descriptors were closed, and (for stating invariants) the raw
transcript and final pending buffer. -/
structure RunResult where
  output : List Char
  last_update_id : Nat
  exit : ExitKind
  notes : List (List Char)
  termActions : List TermAction
  masterClosed : Bool
  slaveClosed : Bool
  raw : List Char
  pendingAtEnd : List Char
deriving DecidableEq, Repr


/-- State at loop entry. -/
def initialState (last_update_id : Nat) : LoopState :=
  ⟨[], [], false, last_update_id, [], []⟩


/-- The `finally` block's escalation: if the child is still alive,
`terminate()`, `wait(timeout=5)`, and `kill()` when the wait times out. -/
def finallyActions (env : Env) : List TermAction :=
  if env.aliveAtFinally then
    .terminate :: (if env.gracefulStop then [] else [.kill])
  else []


/-- `run_kiro_interactive`: spawn (both descriptors are closed and an error
string returned on failure), run the loop, then the `finally` block, and
return `(strip_ansi(full_output), last_update_id)`. -/
def run_kiro_interactive (env : Env) (last_update_id : Nat) : RunResult :=
  match env.spawn with
  | .notFound =>
    ⟨"Error: kiro-cli not found on PATH.".toList, last_update_id, .launchFailure,
      [], [], true, true, [], []⟩
  | .failed m =>
    ⟨"Error starting kiro-cli: ".toList ++ m, last_update_id, .launchFailure,
      [], [], true, true, [], []⟩
  | .ok =>
    let r := runLoop env.chatId env.channel env.ticks (initialState last_update_id)
    ⟨stripAnsi r.1.full_output, r.1.last_update_id, r.2, r.1.notes,
      r.1.termActions ++ finallyActions env, true, true,
      r.1.full_output, r.1.pending_buf⟩


/-- The output of a plain blocking run of the same child: every chunk it
produces, concatenated up to and including the iteration on which it exits.
This is the spec-side reference for claim C3. -/
def blockingOutput : List Tick → List Char
  | [] => []
  | t :: rest =>
    if exitedCond t then drainData t
    else drainData t ++ blockingOutput rest


/-- A run in which the child prints one line and exits, silently. -/
def envQuiet : Env :=
  ⟨.ok, "77".toList, [], [⟨false, ["Build succeeded.\n".toList], false, false, true⟩,
    ⟨true, [], false, false, true⟩], false, true⟩


/-- A run in which the child prints `"Proceed? "` and no reply ever comes. -/
def envStuck : Env :=
  ⟨.ok, "77".toList, [], [⟨false, ["Proceed? ".toList], false, false, true⟩,
    ⟨false, [], false, true, true⟩], true, false⟩


/-- The end-to-end scenario of the spec: a question, a reply `"y"`, then
completion. -/
def envDialog : Env :=
  ⟨.ok, "77".toList, [⟨5, some ⟨"77".toList, "y".toList⟩⟩],
    [⟨false, ["Step 1 done.\n".toList], false, false, true⟩,
      ⟨false, ["Delete old files? (y/n) ".toList], false, false, true⟩,
      ⟨false, [], false, true, true⟩,
      ⟨false, ["Deleting...\n".toList, "done.\n".toList], false, false, true⟩,
      ⟨true, [], false, false, true⟩], false, true⟩


/-! ### Branch equations for `step` -/

/-- The state after the silence check fires without finding a prompt. -/
def firedState (t : Tick) (st : LoopState) : LoopState :=
  { drainState t st with silence_checked := true }


/-- The state after a prompt was forwarded and the reply written: buffers
cleared, flag re-armed, watermark advanced. -/
def replyState (t : Tick) (st : LoopState) (newId : Nat) : LoopState :=
  ⟨st.full_output ++ drainData t, [], false, newId,
    st.notes ++ [sentNote (kiroAsksMsg (st.pending_buf ++ drainData t))],
    st.termActions⟩


/-- The state after a prompt was forwarded but writing the reply failed. -/
def writeFailState (t : Tick) (st : LoopState) (newId : Nat) : LoopState :=
  ⟨st.full_output ++ drainData t, st.pending_buf ++ drainData t, true, newId,
    st.notes ++ [sentNote (kiroAsksMsg (st.pending_buf ++ drainData t))],
    st.termActions⟩


/-- The state after the reply wait timed out: timeout notification sent and
`terminate()` called. -/
def timeoutState (t : Tick) (st : LoopState) (newId : Nat) : LoopState :=
  ⟨st.full_output ++ drainData t, st.pending_buf ++ drainData t, true, newId,
    st.notes ++ [sentNote (kiroAsksMsg (st.pending_buf ++ drainData t))]
      ++ [sentNote timeoutNote],
    st.termActions ++ [.terminate]⟩


/-- The state and tick of the C5 counterexample: a prompt is pending, the
silence check fires, the reply `"yes"` is written. -/
def stC5 : LoopState := ⟨"Continue? ".toList, "Continue? ".toList, false, 4, [], []⟩


def tC5 : Tick := ⟨false, [], false, true, true⟩


def chC5 : List TgUpdate := [⟨5, some ⟨"77".toList, "yes".toList⟩⟩]


/-- The deadline scenario: one idle tick, then the budget is exhausted; the
child is still alive at cleanup and ignores `terminate`. -/
def envDeadline : Env :=
  ⟨.ok, "77".toList, [], [⟨false, [], false, false, true⟩], true, false⟩


/-- A session whose spawn fails with `FileNotFoundError`. -/
def envNotFound : Env := ⟨.notFound, "77".toList, [], [], false, true⟩


/-! ## `redact_pii` and `_PII_PATTERNS` (folder_monitor.py)

Each PII regex is embedded as an executable matcher
`Option Char → List Char → Option Nat`: given the character before the
candidate position (for `\b`) and the text from the position on, it returns
the length `re` would match there, or `none`.  The fixed-shape patterns
(phone, SSN, card, AWS key) are embedded as ordered template lists — one
template per way of resolving the optional pieces, in exactly the order a
backtracking engine explores them; the e-mail pattern, whose runs are
unbounded, gets a dedicated matcher mirroring the greedy-run-then-backtrack
behaviour of `[A-Za-z0-9.\-]+\.[A-Za-z]{2,}\b`. -/

/-- The class `[A-Z0-9]`. -/
def upperAlnumChar (c : Char) : Bool := isUpperChar c || isDigitChar c


/-- The phone separator class `[\s.\-]`. -/
def sepChar (c : Char) : Bool := isSpaceChar c || c = '.' || c = '-'


/-- The card separator class `[\s\-]`. -/
def cardSepChar (c : Char) : Bool := isSpaceChar c || c = '-'


/-- The e-mail local-part class `[A-Za-z0-9._%+\-]`. -/
def localChar (c : Char) : Bool :=
  isAlphaChar c || isDigitChar c || c = '.' || c = '_' || c = '%' || c = '+' || c = '-'


/-- The e-mail domain class `[A-Za-z0-9.\-]`. -/
def domainChar (c : Char) : Bool :=
  isAlphaChar c || isDigitChar c || c = '.' || c = '-'


/-- Consume exactly `n` characters of class `p`. -/
def classN (p : Char → Bool) : Nat → List Char → Option (List Char)
  | 0, s => some s
  | _ + 1, [] => none
  | n + 1, c :: t => if p c then classN p n t else none


/-- One fixed-width piece of a pattern: a literal character, `\d{n}`, a
phone separator, a card separator, or `[A-Z0-9]{n}`. -/
inductive TItem
  | lit (c : Char)
  | digits (n : Nat)
  | sepPhone
  | sepCard
  | upper (n : Nat)
deriving DecidableEq, Repr


/-- Match one item, returning the rest of the input. -/
def matchItem : TItem → List Char → Option (List Char)
  | .lit c, d :: s => if d = c then some s else none
  | .lit _, [] => none
  | .digits n, s => classN isDigitChar n s
  | .sepPhone, s => classN sepChar 1 s
  | .sepCard, s => classN cardSepChar 1 s
  | .upper n, s => classN upperAlnumChar n s


/-- Match a template (a resolved sequence of items). -/
def matchTemplate : List TItem → List Char → Option (List Char)
  | [], s => some s
  | it :: items, s =>
    match matchItem it s with
    | some s' => matchTemplate items s'
    | none => none


/-- `\b` + ordered alternatives + trailing `\b`: try the templates in
backtracking order; a template that matches but is followed by a word
character fails its trailing `\b` and the next one is tried. -/
def templMatch (ts : List (List TItem)) (p : Option Char) (s : List Char) : Option Nat :=
  if !boundary p s.head? then none
  else
    ts.findSome? fun t =>
      match matchTemplate t s with
      | some rest => if isWordOpt rest.head? then none else some (s.length - rest.length)
      | none => none


/-- An optional piece: present first, then absent — the order `?` tries. -/
def optItems (x : List TItem) : List (List TItem) := [x, []]


/-- `(\+?1[\s.\-]?)?\(?\d{3}\)?[\s.\-]?\d{3}[\s.\-]?\d{4}`, expanded in
backtracking order (rightmost options vary fastest). -/
def phoneTemplates : List (List TItem) :=
  ([[.lit '+', .lit '1', .sepPhone], [.lit '+', .lit '1'],
    [.lit '1', .sepPhone], [.lit '1'], []] : List (List TItem)).flatMap fun g =>
    (optItems [.lit '(']).flatMap fun po =>
      (optItems [.lit ')']).flatMap fun pc =>
        (optItems [.sepPhone]).flatMap fun s1 =>
          (optItems [.sepPhone]).flatMap fun s2 =>
            [g ++ po ++ [.digits 3] ++ pc ++ s1 ++ [.digits 3] ++ s2 ++ [.digits 4]]


/-- `\d{3}-\d{2}-\d{4}`. -/
def ssnTemplates : List (List TItem) :=
  [[.digits 3, .lit '-', .digits 2, .lit '-', .digits 4]]


/-- `\d{4}[\s\-]?\d{4}[\s\-]?\d{4}[\s\-]?\d{4}`, expanded. -/
def cardTemplates : List (List TItem) :=
  (optItems [.sepCard]).flatMap fun s1 =>
    (optItems [.sepCard]).flatMap fun s2 =>
      (optItems [.sepCard]).flatMap fun s3 =>
        [[.digits 4] ++ s1 ++ [.digits 4] ++ s2 ++ [.digits 4] ++ s3 ++ [.digits 4]]


/-- `AKIA[A-Z0-9]{16}`. -/
def awsTemplates : List (List TItem) :=
  [[.lit 'A', .lit 'K', .lit 'I', .lit 'A', .upper 16]]


def phoneMatch : Option Char → List Char → Option Nat := templMatch phoneTemplates


def ssnMatch : Option Char → List Char → Option Nat := templMatch ssnTemplates


def cardMatch : Option Char → List Char → Option Nat := templMatch cardTemplates


def awsMatch : Option Char → List Char → Option Nat := templMatch awsTemplates


/-- The backtracking search of `[A-Za-z0-9.\-]+\.[A-Za-z]{2,}\b` inside the
maximal domain run `R`: the `+` is greedy, so the rightmost `.` whose
following letter run has length at least 2 and ends at a `\b` wins.  `q` is
the character just after `R` in the whole input (for the `\b` when the
letters reach `R`'s end). -/
def emailTld (R : List Char) (q : Option Char) : Option Nat :=
  (List.range R.length).foldl
    (fun acc j =>
      if 1 ≤ j ∧ R.getD j ' ' = '.' then
        let letters := (R.drop (j + 1)).takeWhile isAlphaChar
        let after :=
          match (R.drop (j + 1 + letters.length)).head? with
          | some c => some c
          | none => q
        if 2 ≤ letters.length && !isWordOpt after then some (j + 1 + letters.length)
        else acc
      else acc)
    none


/-- `\b[A-Za-z0-9._%+\-]+@[A-Za-z0-9.\-]+\.[A-Za-z]{2,}\b`: the local part
is the maximal run (it cannot give characters back, since `@` is not in the
class), then `@`, then the domain search above. -/
def emailMatch (p : Option Char) (s : List Char) : Option Nat :=
  let lc := s.takeWhile localChar
  if lc.isEmpty then none
  else if !boundary p s.head? then none
  else
    match s.drop lc.length with
    | '@' :: rest2 =>
      let R := rest2.takeWhile domainChar
      match emailTld R ((rest2.drop R.length).head?) with
      | some k => some (lc.length + 1 + k)
      | none => none
    | _ => none


/-- `re.sub` for one pattern: scan left to right with the previous original
character threaded for `\b`; at a match, emit the token and resume after the
matched span (whose last character becomes the new previous character); the
count of replacements is `len(findall(...))`. -/
def subScan (m : Option Char → List Char → Option Nat) (token : List Char) :
    Option Char → List Char → List Char × Nat
  | _, [] => ([], 0)
  | p, c :: t =>
    match m p (c :: t) with
    | some (L + 1) =>
      let r := subScan m token ((c :: t).take (L + 1)).getLast? ((c :: t).drop (L + 1))
      (token ++ r.1, r.2 + 1)
    | _ =>
      let r := subScan m token (some c) t
      (c :: r.1, r.2)
termination_by _ s => s.length
decreasing_by
  · simp only [List.length_drop, List.length_cons]
    omega
  · simp only [List.length_cons]
    omega


/-- `_PII_PATTERNS`: the ordered (matcher, replacement-token) pairs. -/
def piiPatterns : List ((Option Char → List Char → Option Nat) × List Char) :=
  [(emailMatch, "[EMAIL]".toList), (phoneMatch, "[PHONE]".toList),
    (ssnMatch, "[SSN]".toList), (cardMatch, "[CARD]".toList),
    (awsMatch, "[AWS_KEY]".toList)]


/-- `redact_pii`: apply each pattern in order; when a pattern hits, record a
summary line and substitute its token. -/
def redact_pii (content : List Char) : List Char × List (List Char) :=
  piiPatterns.foldl
    (fun acc pat =>
      let r := subScan pat.1 pat.2 none acc.1
      if r.2 = 0 then acc
      else (r.1, acc.2 ++ [pat.2 ++ ": ".toList ++ (toString r.2).toList
          ++ " occurrence(s)".toList]))
    (content, [])


/-! ### The scan relation and the no-match predicate -/

/-- The character just before the position reached after reading `a`, when
the character before the whole text was `p` — what `\b` sees. -/
def prevAt (p : Option Char) (a : List Char) : Option Char :=
  match a.getLast? with
  | some d => some d
  | none => p


/-- `m` matches nowhere in `y` (scanning with initial previous character
`p`). -/
def NoMatchFrom (m : Option Char → List Char → Option Nat) (p : Option Char)
    (y : List Char) : Prop :=
  ∀ a c b, y = a ++ c :: b → m (prevAt p a) (c :: b) = none


/-- The graph of `re.sub`'s scan: `ScanRel m token p x y` says scanning `x`
(previous character `p`) produces `y`. -/
inductive ScanRel (m : Option Char → List Char → Option Nat) (token : List Char) :
    Option Char → List Char → List Char → Prop
  | nil (p : Option Char) : ScanRel m token p [] []
  | miss (p : Option Char) (c : Char) (t y : List Char) :
      m p (c :: t) = none → ScanRel m token (some c) t y →
      ScanRel m token p (c :: t) (c :: y)
  | hit (p : Option Char) (c : Char) (t : List Char) (L : Nat) (y : List Char) :
      m p (c :: t) = some (L + 1) →
      ScanRel m token ((c :: t).take (L + 1)).getLast? ((c :: t).drop (L + 1)) y →
      ScanRel m token p (c :: t) (token ++ y)


/-! ### What the preservation argument needs from a matcher and a token -/

/-- The facts the no-rematch argument uses about one embedded pattern. -/
structure MatcherFacts (m : Option Char → List Char → Option Nat) : Prop where
  le_len : ∀ p s L, m p s = some L → L ≤ s.length
  no_brackets : ∀ p s L, m p s = some L → ∀ c ∈ s.take L, c ≠ '[' ∧ c ≠ ']'
  big_or_at : ∀ p s L, m p s = some L → 8 ≤ L ∨ '@' ∈ s.take L
  ends_word : ∀ p s L, m p s = some L → isWordOpt (s.take L).getLast? = true
  end_nonword : ∀ p s L, m p s = some L → isWordOpt (s.drop L).head? = false
  start_bdry : ∀ p s L, m p s = some L → boundary p s.head? = true
  transfer : ∀ p a brest b' L, m p (a ++ '[' :: brest) = some L → L ≤ a.length →
    (L = a.length → isWordOpt b'.head? = false) → ∃ L', m p (a ++ b') = some L'


/-- The facts the argument uses about a replacement token. -/
structure TokenFacts (tok : List Char) : Prop where
  shape : ∃ w, tok = '[' :: w ++ [']'] ∧ '[' ∉ w ∧ ']' ∉ w ∧ '@' ∉ w ∧ w.length ≤ 7


/-! ### Anatomy of the template matchers -/

/-- The (fixed) number of characters an item consumes. -/
def itemWidth : TItem → Nat
  | .lit _ => 1
  | .digits n => n
  | .sepPhone => 1
  | .sepCard => 1
  | .upper n => n


/-- The class every character consumed by an item satisfies. -/
def itemPred : TItem → Char → Bool
  | .lit c, d => decide (d = c)
  | .digits _, d => isDigitChar d
  | .sepPhone, d => sepChar d
  | .sepCard, d => cardSepChar d
  | .upper _, d => upperAlnumChar d


/-- Not a bracket and not an `@`. -/
def okChar (c : Char) : Bool :=
  !(decide (c = '[')) && !(decide (c = ']')) && !(decide (c = '@'))


/-- Items whose consumed characters are certainly `okChar`. -/
def itemBF : TItem → Bool
  | .lit c => okChar c
  | .digits _ => true
  | .sepPhone => true
  | .sepCard => true
  | .upper _ => true


/-- Items that consume at least one character and only word characters. -/
def endOK : TItem → Bool
  | .digits (_ + 1) => true
  | .upper (_ + 1) => true
  | _ => false


/-- Total width of a template. -/
def tWidth (t : List TItem) : Nat := (t.map itemWidth).sum


/-! ### Anatomy of the e-mail matcher -/

/-- One step of the domain-side backtracking search. -/
def tldStep (R : List Char) (q : Option Char) (acc : Option Nat) (j : Nat) :
    Option Nat :=
  if 1 ≤ j ∧ R.getD j ' ' = '.' then
    let letters := (R.drop (j + 1)).takeWhile isAlphaChar
    let after :=
      match (R.drop (j + 1 + letters.length)).head? with
      | some c => some c
      | none => q
    if 2 ≤ letters.length && !isWordOpt after then some (j + 1 + letters.length)
    else acc
  else acc


/-- Position `j` of `R` carries a dot that starts a valid TLD. -/
def tldValid (R : List Char) (q : Option Char) (j : Nat) : Prop :=
  1 ≤ j ∧ R.getD j ' ' = '.' ∧
  2 ≤ ((R.drop (j + 1)).takeWhile isAlphaChar).length ∧
  isWordOpt ((R.drop (j + 1 + ((R.drop (j + 1)).takeWhile isAlphaChar).length)).head?.or q)
    = false


/-- The span a valid dot at `j` produces. -/
def kOf (R : List Char) (j : Nat) : Nat :=
  j + 1 + ((R.drop (j + 1)).takeWhile isAlphaChar).length


/-! ### Equivalence of the searched regex with the spec's pattern list -/

theorem searchPred_or (p q : List Char → Bool) (l : List Char) :
    searchPred (fun s => p s || q s) l = (searchPred p l || searchPred q l) := by
  induction l with
  | nil => rfl
  | cons c t ih =>
    simp only [searchPred, ih]
    cases p (c :: t) <;> cases q (c :: t) <;>
      cases searchPred p t <;> cases searchPred q t <;> rfl


theorem searchPred_eq_any (p : List Char → Bool) (hp : p [] = false) (l : List Char) :
    searchPred p l = (List.range (l.length + 1)).any fun i => p (l.drop i) := by
  induction l with
  | nil => simpa [searchPred] using hp.symm
  | cons c t ih =>
    rw [List.length_cons, List.range_succ_eq_map, List.any_cons, List.any_map]
    simp only [searchPred, List.drop_zero, ih]
    congr 1


theorem searchPred_trailing_all_ws {c : Char} (hc : isSpaceChar c = false)
    {t : List Char} (ht : t.all isSpaceChar = true) :
    searchPred (trailingBranch c) t = false := by
  induction t with
  | nil => rfl
  | cons a s ih =>
    simp only [List.all_cons, Bool.and_eq_true] at ht
    simp only [searchPred, trailingBranch, ih ht.2, Bool.or_false]
    have : ¬(a = c) := by
      intro h; rw [h] at ht; rw [ht.1] at hc; cases hc
    simp [this]


theorem dropWhile_append_all {p : Char → Bool} {xs : List Char}
    (h : xs.all p = true) (ys : List Char) :
    (xs ++ ys).dropWhile p = ys.dropWhile p := by
  induction xs with
  | nil => rfl
  | cons a t ih =>
    simp only [List.all_cons, Bool.and_eq_true] at h
    simp [List.dropWhile_cons_of_pos h.1, ih h.2]


theorem dropWhile_append_not_all {p : Char → Bool} {xs : List Char}
    (h : ¬ xs.all p = true) (ys : List Char) :
    (xs ++ ys).dropWhile p = xs.dropWhile p ++ ys := by
  induction xs with
  | nil => simp at h
  | cons a t ih =>
    by_cases ha : p a
    · simp only [List.all_cons, ha, Bool.true_and] at h
      simp [List.dropWhile_cons_of_pos ha, ih h]
    · simp [List.dropWhile_cons_of_neg ha]


theorem searchPred_trailing (c : Char) (hc : isSpaceChar c = false) (l : List Char) :
    searchPred (trailingBranch c) l = trailingAfterWS c l := by
  have key : ∀ l : List Char,
      searchPred (trailingBranch c) l
        = ((l.reverse.dropWhile isSpaceChar).head? == some c) := by
    intro l
    induction l with
    | nil => rfl
    | cons a t ih =>
      simp only [searchPred, trailingBranch, List.reverse_cons]
      by_cases ht : t.all isSpaceChar = true
      · have htr : t.reverse.all isSpaceChar = true := by simpa using ht
        rw [dropWhile_append_all htr, searchPred_trailing_all_ws hc ht, Bool.or_false]
        by_cases ha : isSpaceChar a = true
        · have hac : (a == c) = false := by
            cases hb : a == c
            · rfl
            · rw [eq_of_beq hb, hc] at ha; cases ha
          rw [List.dropWhile_cons_of_pos ha]
          simp [ht, hac, show ¬ a = c from fun h => by simp [h] at hac]
        · rw [List.dropWhile_cons_of_neg (by simp [ha])]
          simp only [ht, Bool.and_true, List.head?_cons]
          by_cases h : a = c <;> simp [h]
      · have ht' : ¬ t.reverse.all isSpaceChar = true := by simpa using ht
        rw [dropWhile_append_not_all ht']
        have hne : t.reverse.dropWhile isSpaceChar ≠ [] := by
          intro hnil
          exact ht' (by
            rw [List.all_eq_true]
            exact List.dropWhile_eq_nil_iff.mp hnil)
        obtain ⟨x, xs, hx⟩ := List.exists_cons_of_ne_nil hne
        rw [hx] at ih ⊢
        simp [ht, ih]
  rw [key]
  unfold trailingAfterWS rstripWS
  rw [List.getLast?_reverse]

theorem searchPred_kw (kw : List Char) (n : Nat) (hn : kw.length = n) (hk : kw ≠ [])
    (l : List Char) :
    searchPred (fun s => startsWithLower kw s && wsThenNonWs (s.drop n)) l
      = kwThenContent kw l := by
  rw [searchPred_eq_any]
  · unfold kwThenContent
    congr 1
    funext i
    rw [List.drop_drop, hn]
  · cases kw with
    | nil => exact absurd rfl hk
    | cons a t => rfl


theorem searchPrompt_eq_spec (l : List Char) :
    searchPred promptAt l = promptPatternSpec l := by
  unfold promptAt promptPatternSpec
  simp only [searchPred_or]
  rw [searchPred_trailing '?' (by decide), searchPred_trailing '>' (by decide),
      searchPred_trailing ':' (by decide),
      searchPred_kw "enter".toList 5 (by decide) (by decide),
      searchPred_kw "choose".toList 6 (by decide) (by decide),
      searchPred_kw "please".toList 6 (by decide) (by decide),
      searchPred_kw "input".toList 5 (by decide) (by decide),
      searchPred_eq_any _ (by decide) l,
      searchPred_eq_any _ (by decide) l,
      searchPred_eq_any _ (by decide) l]
  rfl


example : looksLikePrompt "Continue? (y/n) ".toList = true := by decide

example : looksLikePrompt "Please enter your name: ".toList = true := by decide

example : looksLikePrompt "> ".toList = true := by decide

example : looksLikePrompt "Build succeeded.\n".toList = false := by decide

example : looksLikePrompt "Choose an option:\n".toList = true := by decide

example : looksLikePrompt "   \n  ".toList = false := by decide

example : looksLikePrompt "\x1b[31mDone.\x1b[0m\n".toList = false := by decide


/-- C1: `_looks_like_prompt` returns false when the control-sequence-stripped
text is empty or whitespace-only; true when the stripped text does not end
with a line terminator; and otherwise true iff the last non-blank line
matches, case-insensitively, one of the prompt patterns the specification
enumerates (trailing `?`, a `(y/n)`-style marker, the phrase `yes/no`, a
trailing `>`, `Enter`/`Choose`/`Please`/`Input` followed by non-space
content, or a trailing `:`).  In particular it is true for
`"Continue? (y/n) "`, `"Please enter your name: "` and `"> "`, and false for
`"Build succeeded.\n"`. -/
theorem c1_prompt_classifier :
    (∀ text : List Char, looksLikePrompt text = looksLikePromptSpec text)
    ∧ looksLikePrompt "Continue? (y/n) ".toList = true
    ∧ looksLikePrompt "Please enter your name: ".toList = true
    ∧ looksLikePrompt "> ".toList = true
    ∧ looksLikePrompt "Build succeeded.\n".toList = false := by
  refine ⟨fun text => ?_, by decide, by decide, by decide, by decide⟩
  unfold looksLikePrompt looksLikePromptSpec
  simp only [searchPrompt_eq_spec]


theorem findReply_some {chat : List Char} :
    ∀ {l : List TgUpdate} {t : List Char} {w : Nat},
      findReply chat l = some (t, w) →
      ∃ u ∈ l, qualifies chat u = true ∧ w = u.update_id ∧ t = pyStrip (msgText u) := by
  intro l
  induction l with
  | nil => intro t w h; cases h
  | cons u rest ih =>
    intro t w h
    by_cases hq : qualifies chat u = true
    · simp only [findReply, hq, if_true, Option.some.injEq, Prod.mk.injEq] at h
      exact ⟨u, List.mem_cons_self u rest, hq, h.2.symm, h.1.symm⟩
    · simp only [findReply, hq, if_false] at h
      obtain ⟨v, hv, hq', hw, ht⟩ := ih h
      exact ⟨v, List.mem_cons_of_mem u hv, hq', hw, ht⟩


theorem findReply_min {chat : List Char} :
    ∀ {l : List TgUpdate} {t : List Char} {w : Nat},
      l.Pairwise (fun a b => a.update_id < b.update_id) →
      findReply chat l = some (t, w) →
      ∀ v ∈ l, qualifies chat v = true → w ≤ v.update_id := by
  intro l
  induction l with
  | nil => intro t w _ h; cases h
  | cons u rest ih =>
    intro t w hp h v hv hqv
    have hp' := List.pairwise_cons.mp hp
    by_cases hq : qualifies chat u = true
    · simp only [findReply, hq, if_true, Option.some.injEq, Prod.mk.injEq] at h
      rcases List.mem_cons.mp hv with rfl | hv'
      · exact le_of_eq h.2.symm
      · exact h.2 ▸ le_of_lt (hp'.1 v hv')
    · simp only [findReply, hq, if_false] at h
      rcases List.mem_cons.mp hv with rfl | hv'
      · exact absurd hqv hq
      · exact ih hp'.2 h v hv' hqv


theorem findReply_none {chat : List Char} :
    ∀ {l : List TgUpdate}, (∀ u ∈ l, qualifies chat u = false) →
      findReply chat l = none := by
  intro l
  induction l with
  | nil => intro _; rfl
  | cons u rest ih =>
    intro h
    have hu := h u (List.mem_cons_self u rest)
    simp only [findReply, hu, Bool.false_eq_true, if_false]
    exact ih fun v hv => h v (List.mem_cons_of_mem u hv)


/-- C2: `_poll_telegram_reply` surfaces only updates with `update_id`
strictly greater than `after_id` that match the chat and carry non-empty
text; it returns the first qualifying reply in `update_id` order, advancing
the watermark exactly to that reply's identifier; on timeout it returns no
reply and the unchanged watermark.  Against a channel holding `{5: "yes",
6: "no"}`, polling after 4 yields `("yes", 5)` and polling after 5 yields
`("no", 6)`. -/
theorem c2_poll_telegram_reply :
    (∀ (channel : List TgUpdate) (chat : List Char) (after_id : Nat),
      channel.Pairwise (fun a b => a.update_id < b.update_id) →
      (∀ t w, pollTelegramReply channel chat after_id = (some t, w) →
        ∃ u ∈ channel, after_id < u.update_id ∧ qualifies chat u = true ∧
          w = u.update_id ∧ t = pyStrip (msgText u) ∧
          ∀ v ∈ channel, after_id < v.update_id → qualifies chat v = true →
            u.update_id ≤ v.update_id)
      ∧ ((∀ u ∈ channel, after_id < u.update_id → qualifies chat u = false) →
        pollTelegramReply channel chat after_id = (none, after_id)))
    ∧ pollTelegramReply exampleChannel "77".toList 4 = (some "yes".toList, 5)
    ∧ pollTelegramReply exampleChannel "77".toList 5 = (some "no".toList, 6) := by
  refine ⟨fun channel chat after_id hp => ⟨fun t w h => ?_, fun hnone => ?_⟩,
    by decide, by decide⟩
  · have hps : (channel.filter fun u => after_id + 1 ≤ u.update_id).Pairwise
        (fun a b => a.update_id < b.update_id) := hp.filter _
    unfold pollTelegramReply at h
    cases hf : findReply chat (channel.filter fun u => after_id + 1 ≤ u.update_id) with
    | none => rw [hf] at h; cases h
    | some p =>
      obtain ⟨t', w'⟩ := p
      rw [hf] at h
      simp only [Prod.mk.injEq, Option.some.injEq] at h
      obtain ⟨rfl, rfl⟩ := h
      obtain ⟨u, hu, hq, hw, ht⟩ := findReply_some hf
      have humem := List.mem_filter.mp hu
      refine ⟨u, humem.1, ?_, hq, hw, ht, fun v hv hvgt hvq => ?_⟩
      · have := of_decide_eq_true humem.2
        omega
      · have hvf : v ∈ channel.filter fun u => after_id + 1 ≤ u.update_id :=
          List.mem_filter.mpr ⟨hv, decide_eq_true (by omega)⟩
        exact hw ▸ findReply_min hps hf v hvf hvq
  · unfold pollTelegramReply
    rw [findReply_none fun u hu => ?_]
    have humem := List.mem_filter.mp hu
    have := of_decide_eq_true humem.2
    exact hnone u humem.1 (by omega)


/-- Witness for C2 at a concrete sorted channel: the general part applies to
`exampleChannel` and yields the qualifying update `5`. -/
theorem c2_poll_telegram_reply_witness :
    ∃ u ∈ exampleChannel, 4 < u.update_id ∧ qualifies "77".toList u = true ∧
      5 = u.update_id ∧ "yes".toList = pyStrip (msgText u) ∧
      ∀ v ∈ exampleChannel, 4 < v.update_id → qualifies "77".toList v = true →
        u.update_id ≤ v.update_id :=
  ((c2_poll_telegram_reply.1 exampleChannel "77".toList 4 (by decide)).1
    "yes".toList 5 (by decide))


theorem findReply_id_mem {chat : List Char} :
    ∀ {l : List TgUpdate} {t : List Char} {w : Nat},
      findReply chat l = some (t, w) → ∃ u ∈ l, w = u.update_id := by
  intro l t w h
  obtain ⟨u, hu, _, hw, _⟩ := findReply_some h
  exact ⟨u, hu, hw⟩


/-- On success the watermark strictly advances; on timeout it is unchanged. -/
theorem pollTelegramReply_le (channel : List TgUpdate) (chat : List Char)
    (after_id : Nat) :
    after_id ≤ (pollTelegramReply channel chat after_id).2 := by
  unfold pollTelegramReply
  cases hf : findReply chat (channel.filter fun u => after_id + 1 ≤ u.update_id) with
  | none => simp
  | some p =>
    obtain ⟨t, w⟩ := p
    obtain ⟨u, hu, hw⟩ := findReply_id_mem hf
    have := of_decide_eq_true (List.mem_filter.mp hu).2
    simp only
    omega


theorem pollTelegramReply_lt {channel : List TgUpdate} {chat : List Char}
    {after_id : Nat} {t : List Char} {w : Nat}
    (h : pollTelegramReply channel chat after_id = (some t, w)) :
    after_id < w := by
  unfold pollTelegramReply at h
  cases hf : findReply chat (channel.filter fun u => after_id + 1 ≤ u.update_id) with
  | none => rw [hf] at h; cases h
  | some p =>
    obtain ⟨t', w'⟩ := p
    rw [hf] at h
    simp only [Prod.mk.injEq, Option.some.injEq] at h
    obtain ⟨u, hu, hw⟩ := findReply_id_mem hf
    have := of_decide_eq_true (List.mem_filter.mp hu).2
    omega


theorem drainState_silence_checked (t : Tick) (st : LoopState) :
    (drainState t st).silence_checked
      = if gotDataB t then false else st.silence_checked := rfl


example :
    run_kiro_interactive envQuiet 9 =
      ⟨"Build succeeded.\n".toList, 9, .completed, [], [], true, true,
        "Build succeeded.\n".toList, "Build succeeded.\n".toList⟩ := by decide


example :
    (run_kiro_interactive envStuck 7).exit = .replyTimeout
    ∧ (run_kiro_interactive envStuck 7).notes =
        [sentNote (kiroAsksMsg "Proceed? ".toList), sentNote timeoutNote]
    ∧ (run_kiro_interactive envStuck 7).termActions =
        [.terminate, .terminate, .kill]
    ∧ (run_kiro_interactive envStuck 7).output = "Proceed? ".toList
    ∧ (run_kiro_interactive envStuck 7).last_update_id = 7 := by decide


example :
    (run_kiro_interactive envDialog 4).exit = .completed
    ∧ (run_kiro_interactive envDialog 4).output =
        "Step 1 done.\nDelete old files? (y/n) Deleting...\ndone.\n".toList
    ∧ (run_kiro_interactive envDialog 4).last_update_id = 5 := by decide


/-! ### Loop lemmas -/

theorem goAnsi_plain_cons {c : Char} (h : ¬ c = '\x1b') (l : List Char) :
    goAnsi .plain (c :: l) = c :: goAnsi .plain l := by
  simp [goAnsi, h]


theorem stripAnsi_cons_ne {c : Char} (h : ¬ c = '\x1b') (l : List Char) :
    stripAnsi (c :: l) = c :: stripAnsi l := by
  simp [stripAnsi, goAnsi, h]


theorem sentNote_kiroAsks_head (p : List Char) :
    (sentNote (kiroAsksMsg p)).head? = some 'K' := by
  unfold sentNote kiroAsksMsg
  rw [show ("Kiro asks:\n\n".toList ++ pyStrip (stripAnsi p))
      = 'K' :: ("iro asks:\n\n".toList ++ pyStrip (stripAnsi p)) from rfl]
  rw [stripAnsi_cons_ne (by decide)]
  rfl


theorem kiroAsks_ne_timeoutNote (p : List Char) :
    sentNote (kiroAsksMsg p) ≠ sentNote timeoutNote := by
  intro h
  have h1 := sentNote_kiroAsks_head p
  rw [h] at h1
  have h2 : (sentNote timeoutNote).head? = some 'N' := by decide
  rw [h1] at h2
  simp at h2


theorem step_id_le (chat : List Char) (ch : List TgUpdate) (t : Tick) (st : LoopState) :
    st.last_update_id ≤ ((step chat ch t st).state).last_update_id := by
  unfold step
  dsimp only
  split_ifs
  all_goals
    first
      | exact Nat.le_refl _
      | (rcases hpoll : pollTelegramReply ch chat st.last_update_id with ⟨r, newId⟩
         have hle : st.last_update_id ≤ newId := by
           have h := pollTelegramReply_le ch chat st.last_update_id
           rw [hpoll] at h
           exact h
         cases r <;> simp [hpoll, hle])


theorem suffix_append_both {a b d : List Char} (h : a <:+ b) : a ++ d <:+ b ++ d := by
  obtain ⟨c, rfl⟩ := h
  exact ⟨c, (List.append_assoc c a d).symm⟩


theorem step_full (chat : List Char) (ch : List TgUpdate) (t : Tick) (st : LoopState) :
    (step chat ch t st).state.full_output
      = st.full_output ++ drainData t := by
  unfold step
  dsimp only
  split_ifs
  all_goals
    first
      | rfl
      | (rcases hpoll : pollTelegramReply ch chat st.last_update_id with ⟨r, newId⟩
         cases r <;> simp [hpoll])


theorem step_notes_append (chat : List Char) (ch : List TgUpdate) (t : Tick)
    (st : LoopState) :
    ∃ ex, (step chat ch t st).state.notes = st.notes ++ ex := by
  unfold step
  dsimp only
  split_ifs
  all_goals
    first
      | exact ⟨[], (List.append_nil _).symm⟩
      | (rcases hpoll : pollTelegramReply ch chat st.last_update_id with ⟨r, newId⟩
         cases r <;> simp [hpoll])


theorem step_suffix {chat : List Char} {ch : List TgUpdate} {t : Tick} {st : LoopState}
    (h : st.pending_buf <:+ st.full_output) :
    (step chat ch t st).state.pending_buf <:+ (step chat ch t st).state.full_output := by
  unfold step
  dsimp only
  have hd : st.pending_buf ++ drainData t
      <:+ st.full_output ++ drainData t := suffix_append_both h
  split_ifs
  all_goals
    first
      | exact hd
      | (rcases hpoll : pollTelegramReply ch chat st.last_update_id with ⟨r, newId⟩
         cases r <;> simp [hpoll] <;>
           first
             | exact List.nil_suffix _
             | exact hd)


theorem runLoop_id_le (chat : List Char) (ch : List TgUpdate) :
    ∀ (ticks : List Tick) (st : LoopState),
      st.last_update_id ≤ (runLoop chat ch ticks st).1.last_update_id := by
  intro ticks
  induction ticks with
  | nil => intro st; exact Nat.le_refl _
  | cons t rest ih =>
    intro st
    have hstep := step_id_le chat ch t st
    cases ho : (step chat ch t st).exit with
    | none =>
      simp only [runLoop, ho]
      exact le_trans hstep (ih _)
    | some k =>
      simp only [runLoop, ho]
      exact hstep


theorem runLoop_suffix (chat : List Char) (ch : List TgUpdate) :
    ∀ (ticks : List Tick) (st : LoopState),
      st.pending_buf <:+ st.full_output →
      (runLoop chat ch ticks st).1.pending_buf <:+ (runLoop chat ch ticks st).1.full_output := by
  intro ticks
  induction ticks with
  | nil => intro st h; exact h
  | cons t rest ih =>
    intro st h
    have hstep := @step_suffix chat ch t st h
    cases ho : (step chat ch t st).exit with
    | none =>
      simp only [runLoop, ho]
      exact ih _ hstep
    | some k =>
      simp only [runLoop, ho]
      exact hstep


theorem runLoop_notes_append (chat : List Char) (ch : List TgUpdate) :
    ∀ (ticks : List Tick) (st : LoopState),
      ∃ ex, (runLoop chat ch ticks st).1.notes = st.notes ++ ex := by
  intro ticks
  induction ticks with
  | nil => intro st; exact ⟨[], (List.append_nil _).symm⟩
  | cons t rest ih =>
    intro st
    obtain ⟨ex1, hex1⟩ := step_notes_append chat ch t st
    cases ho : (step chat ch t st).exit with
    | none =>
      simp only [runLoop, ho]
      obtain ⟨ex2, hex2⟩ := ih (step chat ch t st).state
      exact ⟨ex1 ++ ex2, by rw [hex2, hex1, List.append_assoc]⟩
    | some k =>
      simp only [runLoop, ho]
      exact ⟨ex1, hex1⟩


theorem step_exit_completed {chat : List Char} {ch : List TgUpdate} {t : Tick}
    {st : LoopState} (h : (step chat ch t st).exit = some .completed) :
    (step chat ch t st).state.notes = st.notes
    ∧ (step chat ch t st).state.last_update_id = st.last_update_id
    ∧ (step chat ch t st).state.termActions = st.termActions
    ∧ exitedCond t = true := by
  unfold step at h ⊢
  dsimp only at h ⊢
  split_ifs at h ⊢ with h1 h2 h3
  all_goals
    first
      | exact ⟨rfl, rfl, rfl, h1⟩
      | cases h
      | (rcases hpoll : pollTelegramReply ch chat st.last_update_id with ⟨r, newId⟩
         cases r <;> simp [hpoll] at h)


theorem step_exit_timeout {chat : List Char} {ch : List TgUpdate} {t : Tick}
    {st : LoopState} (h : (step chat ch t st).exit = some .replyTimeout) :
    (step chat ch t st).state.notes
      = st.notes ++ [sentNote (kiroAsksMsg ((step chat ch t st).state.pending_buf)),
          sentNote timeoutNote]
    ∧ (step chat ch t st).state.termActions = st.termActions ++ [.terminate] := by
  unfold step at h ⊢
  dsimp only at h ⊢
  split_ifs at h ⊢ with h1 h2 h3
  all_goals
    first
      | cases h
      | (rcases hpoll : pollTelegramReply ch chat st.last_update_id with ⟨r, newId⟩
         cases r <;> simp [hpoll] at h ⊢)


theorem step_exit_not_timeout {chat : List Char} {ch : List TgUpdate} {t : Tick}
    {st : LoopState} (h : (step chat ch t st).exit ≠ some .replyTimeout) :
    (step chat ch t st).state.termActions = st.termActions
    ∧ ((step chat ch t st).state.notes = st.notes
      ∨ ∃ p, (step chat ch t st).state.notes = st.notes ++ [sentNote (kiroAsksMsg p)]) := by
  unfold step at h ⊢
  dsimp only at h ⊢
  split_ifs at h ⊢ with h1 h2 h3
  all_goals
    try exact ⟨rfl, Or.inl rfl⟩
  all_goals
    rcases hpoll : pollTelegramReply ch chat st.last_update_id with ⟨r, newId⟩
  all_goals
    simp only [drainState_last_update_id] at h ⊢
  all_goals
    rw [hpoll] at h ⊢
  all_goals
    cases r with
    | some v =>
      dsimp only at h ⊢
      exact ⟨rfl, Or.inr ⟨_, rfl⟩⟩
    | none =>
      dsimp only at h ⊢
      exact absurd rfl h


theorem step_none_notes {chat : List Char} {ch : List TgUpdate} {t : Tick}
    {st : LoopState} (h : (step chat ch t st).exit = none)
    (hn : (step chat ch t st).state.notes = st.notes) :
    (step chat ch t st).state.last_update_id = st.last_update_id := by
  unfold step at h hn ⊢
  dsimp only at h hn ⊢
  split_ifs at h hn ⊢ with h1 h2 h3
  all_goals
    first
      | rfl
      | cases h
      | (rcases hpoll : pollTelegramReply ch chat st.last_update_id with ⟨r, newId⟩
         cases r <;> simp [hpoll] at h hn ⊢)


theorem step_eq_exited (chat : List Char) (ch : List TgUpdate) (t : Tick)
    (st : LoopState) (h : exitedCond t = true) :
    step chat ch t st = ⟨drainState t st, some .completed, false, drainResets t, false⟩ := by
  unfold step
  dsimp only
  rw [if_pos h]


theorem step_eq_idle (chat : List Char) (ch : List TgUpdate) (t : Tick)
    (st : LoopState) (h1 : exitedCond t = false) (h2 : silenceCond t st = false) :
    step chat ch t st = ⟨drainState t st, none, false, drainResets t, false⟩ := by
  unfold step
  dsimp only
  rw [if_neg (by simp [h1]), if_neg (by simp [h2])]


theorem step_eq_noprompt (chat : List Char) (ch : List TgUpdate) (t : Tick)
    (st : LoopState) (h1 : exitedCond t = false) (h2 : silenceCond t st = true)
    (h3 : looksLikePrompt (st.pending_buf ++ drainData t) = false) :
    step chat ch t st = ⟨firedState t st, none, true, drainResets t, false⟩ := by
  unfold step
  dsimp only
  rw [if_neg (by simp [h1]), if_pos h2, if_neg (by simp [h3])]
  rfl


theorem step_eq_reply (chat : List Char) (ch : List TgUpdate) (t : Tick)
    (st : LoopState) (v : List Char) (newId : Nat)
    (h1 : exitedCond t = false) (h2 : silenceCond t st = true)
    (h3 : looksLikePrompt (st.pending_buf ++ drainData t) = true)
    (hpoll : pollTelegramReply ch chat st.last_update_id = (some v, newId))
    (hw : t.writeOk = true) :
    step chat ch t st
      = ⟨replyState t st newId, none, true, drainResets t ++ [.replyWritten], true⟩ := by
  unfold step
  dsimp only
  rw [if_neg (by simp [h1]), if_pos h2, if_pos (by simpa using h3)]
  simp only [drainState_last_update_id]
  rw [hpoll]
  dsimp only
  rw [if_pos hw]
  rfl


theorem step_eq_writefail (chat : List Char) (ch : List TgUpdate) (t : Tick)
    (st : LoopState) (v : List Char) (newId : Nat)
    (h1 : exitedCond t = false) (h2 : silenceCond t st = true)
    (h3 : looksLikePrompt (st.pending_buf ++ drainData t) = true)
    (hpoll : pollTelegramReply ch chat st.last_update_id = (some v, newId))
    (hw : t.writeOk = false) :
    step chat ch t st
      = ⟨writeFailState t st newId, some .writeError, true, drainResets t, false⟩ := by
  unfold step
  dsimp only
  rw [if_neg (by simp [h1]), if_pos h2, if_pos (by simpa using h3)]
  simp only [drainState_last_update_id]
  rw [hpoll]
  dsimp only
  rw [if_neg (by simp [hw])]
  rfl


theorem step_eq_timeout (chat : List Char) (ch : List TgUpdate) (t : Tick)
    (st : LoopState) (newId : Nat)
    (h1 : exitedCond t = false) (h2 : silenceCond t st = true)
    (h3 : looksLikePrompt (st.pending_buf ++ drainData t) = true)
    (hpoll : pollTelegramReply ch chat st.last_update_id = (none, newId)) :
    step chat ch t st
      = ⟨timeoutState t st newId, some .replyTimeout, true, drainResets t, false⟩ := by
  unfold step
  dsimp only
  rw [if_neg (by simp [h1]), if_pos h2, if_pos (by simpa using h3)]
  simp only [drainState_last_update_id]
  rw [hpoll]
  rfl


/-- Exhaustive case analysis on one loop iteration. -/
theorem step_elim (chat : List Char) (ch : List TgUpdate) (t : Tick) (st : LoopState)
    {motive : StepOut → Prop}
    (hex : exitedCond t = true →
      motive ⟨drainState t st, some .completed, false, drainResets t, false⟩)
    (hidle : exitedCond t = false → silenceCond t st = false →
      motive ⟨drainState t st, none, false, drainResets t, false⟩)
    (hnop : exitedCond t = false → silenceCond t st = true →
      looksLikePrompt (st.pending_buf ++ drainData t) = false →
      motive ⟨firedState t st, none, true, drainResets t, false⟩)
    (hreply : ∀ v newId, exitedCond t = false → silenceCond t st = true →
      looksLikePrompt (st.pending_buf ++ drainData t) = true →
      pollTelegramReply ch chat st.last_update_id = (some v, newId) → t.writeOk = true →
      motive ⟨replyState t st newId, none, true, drainResets t ++ [.replyWritten], true⟩)
    (hwfail : ∀ v newId, exitedCond t = false → silenceCond t st = true →
      looksLikePrompt (st.pending_buf ++ drainData t) = true →
      pollTelegramReply ch chat st.last_update_id = (some v, newId) → t.writeOk = false →
      motive ⟨writeFailState t st newId, some .writeError, true, drainResets t, false⟩)
    (htim : ∀ newId, exitedCond t = false → silenceCond t st = true →
      looksLikePrompt (st.pending_buf ++ drainData t) = true →
      pollTelegramReply ch chat st.last_update_id = (none, newId) →
      motive ⟨timeoutState t st newId, some .replyTimeout, true, drainResets t, false⟩) :
    motive (step chat ch t st) := by
  cases h1 : exitedCond t with
  | true => rw [step_eq_exited chat ch t st h1]; exact hex h1
  | false =>
    cases h2 : silenceCond t st with
    | false => rw [step_eq_idle chat ch t st h1 h2]; exact hidle h1 h2
    | true =>
      cases h3 : looksLikePrompt (st.pending_buf ++ drainData t) with
      | false => rw [step_eq_noprompt chat ch t st h1 h2 h3]; exact hnop h1 h2 h3
      | true =>
        rcases hpoll : pollTelegramReply ch chat st.last_update_id with ⟨r, newId⟩
        cases r with
        | some v =>
          cases hw : t.writeOk with
          | true =>
            rw [step_eq_reply chat ch t st v newId h1 h2 h3 hpoll hw]
            exact hreply v newId h1 h2 h3 hpoll hw
          | false =>
            rw [step_eq_writefail chat ch t st v newId h1 h2 h3 hpoll hw]
            exact hwfail v newId h1 h2 h3 hpoll hw
        | none =>
          rw [step_eq_timeout chat ch t st newId h1 h2 h3 hpoll]
          exact htim newId h1 h2 h3 hpoll


/-! ### Facts about one iteration, for the silence latch (C5) and the
pending buffer (C8) -/

theorem silenceCond_true {t : Tick} {st : LoopState} (h : silenceCond t st = true) :
    drainData t = [] ∧ t.silenceElapsed = true ∧ st.pending_buf ≠ []
      ∧ st.silence_checked = false := by
  unfold silenceCond gotDataB at h
  simp only [drainState_pending_buf, drainState_silence_checked, gotDataB,
    Bool.and_eq_true, Bool.not_eq_true', Bool.not_not] at h
  obtain ⟨⟨⟨hd, hs⟩, hp⟩, hc⟩ := h
  have hdn : drainData t = [] := List.isEmpty_iff.mp hd
  refine ⟨hdn, hs, ?_, ?_⟩
  · intro hnil
    rw [hdn, hnil] at hp
    simp at hp
  · rw [hd] at hc
    simpa using hc


theorem newData_mem_drainResets (t : Tick) :
    (ResetReason.newData ∈ drainResets t) ↔ drainData t ≠ [] := by
  unfold drainResets gotDataB
  by_cases hd : (drainData t).isEmpty = true
  · simp [hd, List.isEmpty_iff.mp hd]
  · have := List.isEmpty_eq_false.mp (by simpa using hd)
    simp [hd, this]


theorem replyWritten_not_mem_drainResets (t : Tick) :
    ResetReason.replyWritten ∉ drainResets t := by
  unfold drainResets
  by_cases hd : gotDataB t = true <;> simp [hd]


/-- C5's only-when conditions: the silence check fires only when the silence
threshold was reached with no new data, the pending buffer is non-empty, and
the one-shot flag is clear. -/
theorem step_fired_only_when (chat : List Char) (ch : List TgUpdate) (t : Tick)
    (st : LoopState) :
    (step chat ch t st).fired = true →
      t.silenceElapsed = true ∧ st.pending_buf ≠ [] ∧ st.silence_checked = false
        ∧ drainData t = [] := by
  refine @step_elim chat ch t st
    (fun o => o.fired = true →
      t.silenceElapsed = true ∧ st.pending_buf ≠ [] ∧ st.silence_checked = false
        ∧ drainData t = [])
    ?_ ?_ ?_ ?_ ?_ ?_
  · intro _ hf; cases hf
  · intro _ _ hf; cases hf
  · intro _ h2 _ _
    obtain ⟨hd, hs, hp, hc⟩ := silenceCond_true h2
    exact ⟨hs, hp, hc, hd⟩
  · intro v newId _ h2 _ _ _ _
    obtain ⟨hd, hs, hp, hc⟩ := silenceCond_true h2
    exact ⟨hs, hp, hc, hd⟩
  · intro v newId _ h2 _ _ _ _
    obtain ⟨hd, hs, hp, hc⟩ := silenceCond_true h2
    exact ⟨hs, hp, hc, hd⟩
  · intro newId _ h2 _ _ _
    obtain ⟨hd, hs, hp, hc⟩ := silenceCond_true h2
    exact ⟨hs, hp, hc, hd⟩


/-- Firing sets the one-shot flag, unless a reply was written (which
re-arms it). -/
theorem step_fired_sets_flag (chat : List Char) (ch : List TgUpdate) (t : Tick)
    (st : LoopState) :
    (step chat ch t st).fired = true → (step chat ch t st).cleared = false →
      (step chat ch t st).state.silence_checked = true := by
  refine @step_elim chat ch t st
    (fun o => o.fired = true → o.cleared = false → o.state.silence_checked = true)
    ?_ ?_ ?_ ?_ ?_ ?_
  · intro _ hf _; cases hf
  · intro _ _ hf _; cases hf
  · intro _ _ _ _ _; rfl
  · intro _ _ _ _ _ _ _ _ hcl; cases hcl
  · intro _ _ _ _ _ _ _ _ _; rfl
  · intro _ _ _ _ _ _ _; rfl


/-- When the check does not fire and no data arrives, the flag is
untouched. -/
theorem step_unfired_flag (chat : List Char) (ch : List TgUpdate) (t : Tick)
    (st : LoopState) :
    (step chat ch t st).fired = false → drainData t = [] →
      (step chat ch t st).state.silence_checked = st.silence_checked := by
  refine @step_elim chat ch t st
    (fun o => o.fired = false → drainData t = [] →
      o.state.silence_checked = st.silence_checked)
    ?_ ?_ ?_ ?_ ?_ ?_
  · intro _ _ hd
    simp [drainState_silence_checked, show gotDataB t = false from by simp [gotDataB, hd]]
  · intro _ _ _ hd
    simp [drainState_silence_checked, show gotDataB t = false from by simp [gotDataB, hd]]
  · intro _ _ _ hf _; cases hf
  · intro _ _ _ _ _ _ _ hf _; cases hf
  · intro _ _ _ _ _ _ _ hf _; cases hf
  · intro _ _ _ _ _ hf _; cases hf


/-- A `silence_checked = False` assignment of kind `newData` happens exactly
when bytes arrived. -/
theorem step_resets_newData (chat : List Char) (ch : List TgUpdate) (t : Tick)
    (st : LoopState) :
    (ResetReason.newData ∈ (step chat ch t st).resets) ↔ drainData t ≠ [] := by
  refine @step_elim chat ch t st
    (fun o => (ResetReason.newData ∈ o.resets) ↔ drainData t ≠ []) ?_ ?_ ?_ ?_ ?_ ?_
  · intro _; exact newData_mem_drainResets t
  · intro _ _; exact newData_mem_drainResets t
  · intro _ _ _; exact newData_mem_drainResets t
  · intro _ _ _ _ _ _ _
    rw [List.mem_append]
    constructor
    · rintro (hm | hm)
      · exact (newData_mem_drainResets t).mp hm
      · simp at hm
    · intro hd; exact Or.inl ((newData_mem_drainResets t).mpr hd)
  · intro _ _ _ _ _ _ _; exact newData_mem_drainResets t
  · intro _ _ _ _ _; exact newData_mem_drainResets t


/-- A `silence_checked = False` assignment of kind `replyWritten` happens
exactly when the pending buffer was cleared, i.e. when a reply was
successfully written. -/
theorem step_resets_replyWritten (chat : List Char) (ch : List TgUpdate) (t : Tick)
    (st : LoopState) :
    (ResetReason.replyWritten ∈ (step chat ch t st).resets)
      ↔ (step chat ch t st).cleared = true := by
  refine @step_elim chat ch t st
    (fun o => (ResetReason.replyWritten ∈ o.resets) ↔ o.cleared = true) ?_ ?_ ?_ ?_ ?_ ?_
  · intro _; simp [replyWritten_not_mem_drainResets t]
  · intro _ _; simp [replyWritten_not_mem_drainResets t]
  · intro _ _ _; simp [replyWritten_not_mem_drainResets t]
  · intro _ _ _ _ _ _ _; simp
  · intro _ _ _ _ _ _ _; simp [replyWritten_not_mem_drainResets t]
  · intro _ _ _ _ _; simp [replyWritten_not_mem_drainResets t]


/-- The pending buffer is cleared exactly when a detected prompt was
successfully answered: the check fired, the buffer classified as a prompt,
a reply arrived, and the write into the child's stdin succeeded. -/
theorem step_cleared_iff (chat : List Char) (ch : List TgUpdate) (t : Tick)
    (st : LoopState) :
    (step chat ch t st).cleared = true
      ↔ ((step chat ch t st).fired = true
        ∧ looksLikePrompt (st.pending_buf ++ drainData t) = true
        ∧ (pollTelegramReply ch chat st.last_update_id).1.isSome = true
        ∧ t.writeOk = true) := by
  refine @step_elim chat ch t st
    (fun o => o.cleared = true
      ↔ (o.fired = true ∧ looksLikePrompt (st.pending_buf ++ drainData t) = true
        ∧ (pollTelegramReply ch chat st.last_update_id).1.isSome = true
        ∧ t.writeOk = true)) ?_ ?_ ?_ ?_ ?_ ?_
  · intro _
    constructor
    · intro hcl; cases hcl
    · rintro ⟨hf, _⟩; cases hf
  · intro _ _
    constructor
    · intro hcl; cases hcl
    · rintro ⟨hf, _⟩; cases hf
  · intro _ _ h3
    constructor
    · intro hcl; cases hcl
    · rintro ⟨_, hlp, _⟩; rw [hlp] at h3; cases h3
  · intro v newId _ _ h3 hpoll hw
    simp [h3, hpoll, hw]
  · intro v newId _ _ h3 hpoll hw
    simp [hw]
  · intro newId _ _ h3 hpoll
    simp [hpoll]


/-- Once non-empty, the pending buffer becomes empty only by being
cleared. -/
theorem step_pending_empty (chat : List Char) (ch : List TgUpdate) (t : Tick)
    (st : LoopState) :
    (step chat ch t st).state.pending_buf = [] →
      st.pending_buf ++ drainData t = [] ∨ (step chat ch t st).cleared = true := by
  refine @step_elim chat ch t st
    (fun o => o.state.pending_buf = [] →
      st.pending_buf ++ drainData t = [] ∨ o.cleared = true) ?_ ?_ ?_ ?_ ?_ ?_
  · intro _ hp; exact Or.inl hp
  · intro _ _ hp; exact Or.inl hp
  · intro _ _ _ hp; exact Or.inl hp
  · intro _ _ _ _ _ _ _ _; exact Or.inr rfl
  · intro _ _ _ _ _ _ _ hp; exact Or.inl hp
  · intro _ _ _ _ _ hp; exact Or.inl hp


/-! ### Loop-level lemmas for completion, timeout and deadline exits -/

theorem step_exit_none_exitedCond (chat : List Char) (ch : List TgUpdate) (t : Tick)
    (st : LoopState) :
    (step chat ch t st).exit = none → exitedCond t = false := by
  refine @step_elim chat ch t st (fun o => o.exit = none → exitedCond t = false)
    ?_ ?_ ?_ ?_ ?_ ?_
  · intro _ h; cases h
  · intro h1 _ _; exact h1
  · intro h1 _ _ _; exact h1
  · intro _ _ h1 _ _ _ _ _; exact h1
  · intro _ _ _ _ _ _ _ h; cases h
  · intro _ _ _ _ _ h; cases h


theorem runLoop_completed_notes (chat : List Char) (ch : List TgUpdate) :
    ∀ (ticks : List Tick) (st st' : LoopState),
      runLoop chat ch ticks st = (st', .completed) →
      st'.notes = st.notes →
      st'.full_output = st.full_output ++ blockingOutput ticks
        ∧ st'.last_update_id = st.last_update_id := by
  intro ticks
  induction ticks with
  | nil =>
    intro st st' h _
    rw [runLoop, Prod.mk.injEq] at h
    cases h.2
  | cons t rest ih =>
    intro st st' h hn
    cases ho : (step chat ch t st).exit with
    | some k =>
      simp only [runLoop, ho] at h
      rw [Prod.mk.injEq] at h
      obtain ⟨hst, hk⟩ := h
      have hoc : (step chat ch t st).exit = some .completed := by rw [ho, hk]
      obtain ⟨hnotes, hid, _, hcond⟩ := step_exit_completed hoc
      subst hst
      refine ⟨?_, hid⟩
      rw [step_full chat ch t st]
      simp only [blockingOutput]
      rw [if_pos hcond]
    | none =>
      simp only [runLoop, ho] at h
      have hst' : st' = (runLoop chat ch rest (step chat ch t st).state).1 := by
        rw [h]
      obtain ⟨ex1, hex1⟩ := step_notes_append chat ch t st
      obtain ⟨ex2, hex2⟩ := runLoop_notes_append chat ch rest (step chat ch t st).state
      have hchain : st'.notes = st.notes ++ (ex1 ++ ex2) := by
        rw [hst', hex2, hex1, List.append_assoc]
      rw [hn] at hchain
      have hnil := List.self_eq_append_right.mp hchain
      obtain ⟨he1, he2⟩ := List.append_eq_nil.mp hnil
      have hnotes1 : (step chat ch t st).state.notes = st.notes := by
        rw [hex1, he1, List.append_nil]
      have hnotes' : st'.notes = (step chat ch t st).state.notes := by
        rw [hst', hex2, he2, List.append_nil]
      obtain ⟨hfull, hid⟩ := ih (step chat ch t st).state st' h (by rw [hnotes', hnotes1])
      have hid0 := step_none_notes ho hnotes1
      have hfull0 := step_full chat ch t st
      have hcond := step_exit_none_exitedCond chat ch t st ho
      constructor
      · rw [hfull, hfull0]
        simp only [blockingOutput]
        rw [if_neg (by simp [hcond]), List.append_assoc]
      · rw [hid, hid0]


theorem runLoop_timeout_facts (chat : List Char) (ch : List TgUpdate) :
    ∀ (ticks : List Tick) (st st' : LoopState),
      runLoop chat ch ticks st = (st', .replyTimeout) →
      st'.termActions = st.termActions ++ [.terminate]
      ∧ st'.notes.getLast? = some (sentNote timeoutNote)
      ∧ sentNote (kiroAsksMsg st'.pending_buf) ∈ st'.notes := by
  intro ticks
  induction ticks with
  | nil =>
    intro st st' h
    rw [runLoop, Prod.mk.injEq] at h
    cases h.2
  | cons t rest ih =>
    intro st st' h
    cases ho : (step chat ch t st).exit with
    | some k =>
      simp only [runLoop, ho] at h
      rw [Prod.mk.injEq] at h
      obtain ⟨hst, hk⟩ := h
      have hot : (step chat ch t st).exit = some .replyTimeout := by rw [ho, hk]
      obtain ⟨hnotes, hterm⟩ := step_exit_timeout hot
      subst hst
      refine ⟨hterm, ?_, ?_⟩
      · rw [hnotes]
        rw [show st.notes
            ++ [sentNote (kiroAsksMsg ((step chat ch t st).state.pending_buf)),
              sentNote timeoutNote]
          = (st.notes
              ++ [sentNote (kiroAsksMsg ((step chat ch t st).state.pending_buf))])
            ++ [sentNote timeoutNote] by rw [List.append_assoc]; rfl]
        exact List.getLast?_concat _
      · rw [hnotes]
        simp
    | none =>
      simp only [runLoop, ho] at h
      have hne : (step chat ch t st).exit ≠ some .replyTimeout := by
        rw [ho]; intro hc; cases hc
      obtain ⟨hterm0, _⟩ := step_exit_not_timeout hne
      obtain ⟨hterm, hlast, hmem⟩ := ih (step chat ch t st).state st' h
      exact ⟨by rw [hterm, hterm0], hlast, hmem⟩


theorem runLoop_not_timeout_term (chat : List Char) (ch : List TgUpdate) :
    ∀ (ticks : List Tick) (st st' : LoopState) (k : ExitKind),
      runLoop chat ch ticks st = (st', k) → k ≠ .replyTimeout →
      st'.termActions = st.termActions := by
  intro ticks
  induction ticks with
  | nil =>
    intro st st' k h _
    rw [runLoop, Prod.mk.injEq] at h
    rw [← h.1]
  | cons t rest ih =>
    intro st st' k h hk
    cases ho : (step chat ch t st).exit with
    | some k' =>
      simp only [runLoop, ho] at h
      rw [Prod.mk.injEq] at h
      obtain ⟨hst, hk'⟩ := h
      have hne : (step chat ch t st).exit ≠ some .replyTimeout := by
        rw [ho, hk']
        intro hc
        exact hk (Option.some.inj hc)
      subst hst
      exact (step_exit_not_timeout hne).1
    | none =>
      simp only [runLoop, ho] at h
      have hne : (step chat ch t st).exit ≠ some .replyTimeout := by
        rw [ho]; intro hc; cases hc
      rw [ih (step chat ch t st).state st' k h hk, (step_exit_not_timeout hne).1]


theorem runLoop_no_timeoutNote (chat : List Char) (ch : List TgUpdate) :
    ∀ (ticks : List Tick) (st st' : LoopState) (k : ExitKind),
      runLoop chat ch ticks st = (st', k) → k ≠ .replyTimeout →
      sentNote timeoutNote ∉ st.notes → sentNote timeoutNote ∉ st'.notes := by
  intro ticks
  induction ticks with
  | nil =>
    intro st st' k h _ hmem
    rw [runLoop, Prod.mk.injEq] at h
    rw [← h.1]
    exact hmem
  | cons t rest ih =>
    intro st st' k h hk hmem
    have hstep : ∀ (hne : (step chat ch t st).exit ≠ some .replyTimeout),
        sentNote timeoutNote ∉ (step chat ch t st).state.notes := by
      intro hne hc
      rcases (step_exit_not_timeout hne).2 with heq | ⟨p, heq⟩
      · rw [heq] at hc; exact hmem hc
      · rw [heq] at hc
        rcases List.mem_append.mp hc with hin | hin
        · exact hmem hin
        · rcases List.mem_singleton.mp hin with heq2
          exact kiroAsks_ne_timeoutNote p heq2.symm
    cases ho : (step chat ch t st).exit with
    | some k' =>
      simp only [runLoop, ho] at h
      rw [Prod.mk.injEq] at h
      obtain ⟨hst, hk'⟩ := h
      have hne : (step chat ch t st).exit ≠ some .replyTimeout := by
        rw [ho, hk']
        intro hc
        exact hk (Option.some.inj hc)
      subst hst
      exact hstep hne
    | none =>
      simp only [runLoop, ho] at h
      have hne : (step chat ch t st).exit ≠ some .replyTimeout := by
        rw [ho]; intro hc; cases hc
      exact ih (step chat ch t st).state st' k h hk (hstep hne)


/-! ### Claim theorems about the session loop -/

theorem kill_mem_finallyActions (env : Env) :
    (TermAction.kill ∈ finallyActions env)
      ↔ (env.aliveAtFinally = true ∧ env.gracefulStop = false) := by
  unfold finallyActions
  cases ha : env.aliveAtFinally <;> cases hg : env.gracefulStop <;> simp


/-- C3: for a child that never pauses (no prompt is ever detected, so no
notification is sent) and that runs to completion, the returned transcript
is the complete blocking-run output with control sequences stripped, and the
returned watermark is the input watermark unchanged. -/
theorem c3_never_pauses (env : Env) (i : Nat)
    (hspawn : env.spawn = .ok)
    (hnotes : (run_kiro_interactive env i).notes = [])
    (hexit : (run_kiro_interactive env i).exit = .completed) :
    (run_kiro_interactive env i).output = stripAnsi (blockingOutput env.ticks)
    ∧ (run_kiro_interactive env i).last_update_id = i := by
  unfold run_kiro_interactive at hnotes hexit ⊢
  rw [hspawn] at hnotes hexit ⊢
  dsimp only at hnotes hexit ⊢
  rcases hr : runLoop env.chatId env.channel env.ticks (initialState i) with ⟨st', k⟩
  rw [hr] at hnotes hexit
  dsimp only at hnotes hexit
  subst hexit
  obtain ⟨hfull, hid⟩ := runLoop_completed_notes env.chatId env.channel env.ticks
    (initialState i) st' hr hnotes
  constructor
  · rw [hfull]
    rfl
  · exact hid


/-- Witness for C3: the quiet run prints one line and exits. -/
theorem c3_never_pauses_witness :
    (run_kiro_interactive envQuiet 9).output = stripAnsi (blockingOutput envQuiet.ticks)
    ∧ (run_kiro_interactive envQuiet 9).last_update_id = 9 :=
  c3_never_pauses envQuiet 9 rfl (by decide) (by decide)


/-- C4: when the reply wait times out while a prompt is pending, the session
ends in the terminal `TimedOut` state: the operator is notified of the
timeout (it is the last notification sent), the child is asked to
terminate — escalating to a forced kill exactly when it is still alive at
cleanup and does not stop within the grace period — and the caller still
receives the transcript accumulated so far (whose raw text ends with the
forwarded prompt text, forwarded in one of the notifications) together with
the current watermark. -/
theorem c4_reply_timeout (env : Env) (i : Nat)
    (hspawn : env.spawn = .ok)
    (hexit : (run_kiro_interactive env i).exit = .replyTimeout) :
    (run_kiro_interactive env i).notes.getLast? = some (sentNote timeoutNote)
    ∧ TermAction.terminate ∈ (run_kiro_interactive env i).termActions
    ∧ ((TermAction.kill ∈ (run_kiro_interactive env i).termActions)
        ↔ (env.aliveAtFinally = true ∧ env.gracefulStop = false))
    ∧ sentNote (kiroAsksMsg (run_kiro_interactive env i).pendingAtEnd)
        ∈ (run_kiro_interactive env i).notes
    ∧ (run_kiro_interactive env i).pendingAtEnd <:+ (run_kiro_interactive env i).raw
    ∧ (run_kiro_interactive env i).output
        = stripAnsi (run_kiro_interactive env i).raw
    ∧ i ≤ (run_kiro_interactive env i).last_update_id := by
  unfold run_kiro_interactive at hexit ⊢
  rw [hspawn] at hexit ⊢
  dsimp only at hexit ⊢
  rcases hr : runLoop env.chatId env.channel env.ticks (initialState i) with ⟨st', k⟩
  rw [hr] at hexit
  dsimp only at hexit
  subst hexit
  obtain ⟨hterm, hlast, hmem⟩ := runLoop_timeout_facts env.chatId env.channel env.ticks
    (initialState i) st' hr
  have hsuf : st'.pending_buf <:+ st'.full_output := by
    have := runLoop_suffix env.chatId env.channel env.ticks (initialState i)
      List.nil_suffix
    rw [hr] at this
    exact this
  have hid : i ≤ st'.last_update_id := by
    have := runLoop_id_le env.chatId env.channel env.ticks (initialState i)
    rw [hr] at this
    exact this
  refine ⟨hlast, ?_, ?_, hmem, hsuf, rfl, hid⟩
  · rw [hterm]
    exact List.mem_append.mpr (Or.inl (by simp))
  · rw [hterm]
    simp only [List.mem_append]
    constructor
    · rintro (hin | hin)
      · simp [initialState] at hin
      · exact (kill_mem_finallyActions env).mp hin
    · intro ha
      exact Or.inr ((kill_mem_finallyActions env).mpr ha)


/-- Witness for C4: the stuck run forwards `"Proceed? "` and times out. -/
theorem c4_reply_timeout_witness :
    (run_kiro_interactive envStuck 7).notes.getLast? = some (sentNote timeoutNote)
    ∧ TermAction.terminate ∈ (run_kiro_interactive envStuck 7).termActions
    ∧ ((TermAction.kill ∈ (run_kiro_interactive envStuck 7).termActions)
        ↔ (envStuck.aliveAtFinally = true ∧ envStuck.gracefulStop = false))
    ∧ sentNote (kiroAsksMsg (run_kiro_interactive envStuck 7).pendingAtEnd)
        ∈ (run_kiro_interactive envStuck 7).notes
    ∧ (run_kiro_interactive envStuck 7).pendingAtEnd
        <:+ (run_kiro_interactive envStuck 7).raw
    ∧ (run_kiro_interactive envStuck 7).output
        = stripAnsi (run_kiro_interactive envStuck 7).raw
    ∧ 7 ≤ (run_kiro_interactive envStuck 7).last_update_id :=
  c4_reply_timeout envStuck 7 rfl (by decide)


/-- C5 (amended): the silence check fires only when the threshold has
elapsed with no new data, the pending buffer is non-empty and the one-shot
flag is clear; firing sets the flag (so a non-prompt buffer is not
re-checked in the same window) — but the flag is reset to false when new
bytes arrive *or* when a reply is successfully written after an answered
prompt, not only on new bytes. -/
theorem c5_silence_latch (chat : List Char) (ch : List TgUpdate) (t : Tick)
    (st : LoopState) :
    ((step chat ch t st).fired = true →
      t.silenceElapsed = true ∧ st.pending_buf ≠ [] ∧ st.silence_checked = false
        ∧ drainData t = [])
    ∧ ((step chat ch t st).fired = true → (step chat ch t st).cleared = false →
        (step chat ch t st).state.silence_checked = true)
    ∧ ((step chat ch t st).fired = false → drainData t = [] →
        (step chat ch t st).state.silence_checked = st.silence_checked)
    ∧ ((ResetReason.newData ∈ (step chat ch t st).resets) ↔ drainData t ≠ [])
    ∧ ((ResetReason.replyWritten ∈ (step chat ch t st).resets)
        ↔ (step chat ch t st).cleared = true) :=
  ⟨step_fired_only_when chat ch t st, step_fired_sets_flag chat ch t st,
    step_unfired_flag chat ch t st, step_resets_newData chat ch t st,
    step_resets_replyWritten chat ch t st⟩


/-- Counterexample to C5 as stated: on this iteration no bytes arrive, yet
the checked-flag is set during the step (it fires) and is reset to false by
the reply being written — so the flag is *not* reset exactly when new bytes
arrive. -/
theorem c5_counterexample :
    (step "77".toList chC5 tC5 stC5).resets = [.replyWritten]
    ∧ drainData tC5 = []
    ∧ (step "77".toList chC5 tC5 stC5).fired = true
    ∧ (step "77".toList chC5 tC5 stC5).cleared = true
    ∧ (step "77".toList chC5 tC5 stC5).state.silence_checked = false := by decide


/-- Witness for C5 at the counterexample's concrete step. -/
theorem c5_silence_latch_witness :
    tC5.silenceElapsed = true ∧ stC5.pending_buf ≠ [] ∧ stC5.silence_checked = false
      ∧ drainData tC5 = [] :=
  (c5_silence_latch "77".toList chC5 tC5 stC5).1 (by decide)


/-- C6 (amended): when the overall wall-clock budget is exhausted the child
is terminated through the same terminate-wait-kill escalation as on a reply
timeout (the cleanup path), and the caller still receives the partial
transcript and the current watermark — but no timeout notification is sent
on this path. -/
theorem c6_deadline (env : Env) (i : Nat)
    (hspawn : env.spawn = .ok)
    (hexit : (run_kiro_interactive env i).exit = .deadline) :
    (run_kiro_interactive env i).termActions = finallyActions env
    ∧ sentNote timeoutNote ∉ (run_kiro_interactive env i).notes
    ∧ (run_kiro_interactive env i).output
        = stripAnsi (run_kiro_interactive env i).raw
    ∧ (run_kiro_interactive env i).pendingAtEnd <:+ (run_kiro_interactive env i).raw
    ∧ i ≤ (run_kiro_interactive env i).last_update_id := by
  unfold run_kiro_interactive at hexit ⊢
  rw [hspawn] at hexit ⊢
  dsimp only at hexit ⊢
  rcases hr : runLoop env.chatId env.channel env.ticks (initialState i) with ⟨st', k⟩
  rw [hr] at hexit
  dsimp only at hexit
  subst hexit
  have hterm := runLoop_not_timeout_term env.chatId env.channel env.ticks
    (initialState i) st' .deadline hr (by intro hc; cases hc)
  have hnote := runLoop_no_timeoutNote env.chatId env.channel env.ticks
    (initialState i) st' .deadline hr (by intro hc; cases hc) (by intro hc; cases hc)
  have hsuf : st'.pending_buf <:+ st'.full_output := by
    have := runLoop_suffix env.chatId env.channel env.ticks (initialState i)
      List.nil_suffix
    rw [hr] at this
    exact this
  have hid : i ≤ st'.last_update_id := by
    have := runLoop_id_le env.chatId env.channel env.ticks (initialState i)
    rw [hr] at this
    exact this
  refine ⟨?_, hnote, rfl, hsuf, hid⟩
  rw [hterm]
  rfl


/-- Counterexample to C6 as stated: on a pure deadline exit *no*
notification is sent at all, so the timeout is not "noted via the last
notification sent"; the child is still terminated (terminate then kill) and
the transcript/watermark are returned. -/
theorem c6_counterexample :
    (run_kiro_interactive envDeadline 3).exit = .deadline
    ∧ (run_kiro_interactive envDeadline 3).notes = []
    ∧ (run_kiro_interactive envDeadline 3).notes.getLast?
        ≠ some (sentNote timeoutNote)
    ∧ (run_kiro_interactive envDeadline 3).termActions = [.terminate, .kill]
    ∧ (run_kiro_interactive envDeadline 3).last_update_id = 3 := by decide


/-- Witness for C6 (amended) at the deadline scenario. -/
theorem c6_deadline_witness :
    (run_kiro_interactive envDeadline 3).termActions = finallyActions envDeadline
    ∧ sentNote timeoutNote ∉ (run_kiro_interactive envDeadline 3).notes
    ∧ (run_kiro_interactive envDeadline 3).output
        = stripAnsi (run_kiro_interactive envDeadline 3).raw
    ∧ (run_kiro_interactive envDeadline 3).pendingAtEnd
        <:+ (run_kiro_interactive envDeadline 3).raw
    ∧ 3 ≤ (run_kiro_interactive envDeadline 3).last_update_id :=
  c6_deadline envDeadline 3 rfl (by decide)


/-- C7: on a launch failure (command not found, or any spawn error) the
function returns immediately with a textual error result, the input
watermark unchanged, no notification sent, no termination action and no
reply wait, and both PTY descriptors released. -/
theorem c7_launch_failure (i : Nat) :
    (∀ env : Env, env.spawn = .notFound →
      run_kiro_interactive env i
        = ⟨"Error: kiro-cli not found on PATH.".toList, i, .launchFailure,
            [], [], true, true, [], []⟩)
    ∧ (∀ (env : Env) (m : List Char), env.spawn = .failed m →
      run_kiro_interactive env i
        = ⟨"Error starting kiro-cli: ".toList ++ m, i, .launchFailure,
            [], [], true, true, [], []⟩) := by
  constructor
  · intro env hspawn
    unfold run_kiro_interactive
    rw [hspawn]
  · intro env m hspawn
    unfold run_kiro_interactive
    rw [hspawn]


/-- Witness for C7 at a concrete failing spawn. -/
theorem c7_launch_failure_witness :
    run_kiro_interactive envNotFound 5
      = ⟨"Error: kiro-cli not found on PATH.".toList, 5, .launchFailure,
          [], [], true, true, [], []⟩ :=
  (c7_launch_failure 5).1 envNotFound rfl


/-- C8: the pending buffer is always a suffix of the raw transcript (every
received chunk is appended to both), and it is set to empty exactly when a
detected prompt has been successfully answered — the classifier accepted the
buffer, a reply arrived, and the reply was written to the child's stdin. -/
theorem c8_pending_buffer :
    (∀ (chat : List Char) (ch : List TgUpdate) (t : Tick) (st : LoopState),
      st.pending_buf <:+ st.full_output →
      (step chat ch t st).state.pending_buf <:+ (step chat ch t st).state.full_output)
    ∧ (∀ (chat : List Char) (ch : List TgUpdate) (t : Tick) (st : LoopState),
      (step chat ch t st).cleared = true
        ↔ ((step chat ch t st).fired = true
          ∧ looksLikePrompt (st.pending_buf ++ drainData t) = true
          ∧ (pollTelegramReply ch chat st.last_update_id).1.isSome = true
          ∧ t.writeOk = true))
    ∧ (∀ (chat : List Char) (ch : List TgUpdate) (t : Tick) (st : LoopState),
      (step chat ch t st).state.pending_buf = [] →
        st.pending_buf ++ drainData t = [] ∨ (step chat ch t st).cleared = true)
    ∧ (∀ (env : Env) (i : Nat), env.spawn = .ok →
        (run_kiro_interactive env i).pendingAtEnd <:+ (run_kiro_interactive env i).raw) := by
  refine ⟨fun chat ch t st h => @step_suffix chat ch t st h,
    step_cleared_iff, step_pending_empty, fun env i hspawn => ?_⟩
  unfold run_kiro_interactive
  rw [hspawn]
  dsimp only
  rcases hr : runLoop env.chatId env.channel env.ticks (initialState i) with ⟨st', k⟩
  dsimp only
  have := runLoop_suffix env.chatId env.channel env.ticks (initialState i)
    List.nil_suffix
  rw [hr] at this
  exact this


/-- Witness for C8 at the dialog scenario's first tick. -/
theorem c8_pending_buffer_witness :
    (step "77".toList chC5 tC5 stC5).state.pending_buf
      <:+ (step "77".toList chC5 tC5 stC5).state.full_output :=
  c8_pending_buffer.1 "77".toList chC5 tC5 stC5 (by decide)


/-- C9: watermark monotonicity — every execution path of
`run_kiro_interactive` returns a watermark at least the input watermark,
and `_poll_telegram_reply` returns the input watermark on timeout or a
strictly greater identifier on success. -/
theorem c9_watermark_monotonic :
    (∀ (env : Env) (i : Nat), i ≤ (run_kiro_interactive env i).last_update_id)
    ∧ (∀ (channel : List TgUpdate) (chat : List Char) (a : Nat),
        a ≤ (pollTelegramReply channel chat a).2)
    ∧ (∀ (channel : List TgUpdate) (chat : List Char) (a : Nat) (t : List Char) (w : Nat),
        pollTelegramReply channel chat a = (some t, w) → a < w) := by
  refine ⟨fun env i => ?_, pollTelegramReply_le,
    fun channel chat a t w h => pollTelegramReply_lt h⟩
  unfold run_kiro_interactive
  cases hspawn : env.spawn with
  | notFound => exact Nat.le_refl _
  | failed m => exact Nat.le_refl _
  | ok =>
    dsimp only
    rcases hr : runLoop env.chatId env.channel env.ticks (initialState i) with ⟨st', k⟩
    dsimp only
    have := runLoop_id_le env.chatId env.channel env.ticks (initialState i)
    rw [hr] at this
    exact this


/-- Witness for C9's poll part at the example channel. -/
theorem c9_watermark_monotonic_witness : 4 < 5 :=
  c9_watermark_monotonic.2.2 exampleChannel "77".toList 4 "yes".toList 5 (by decide)


theorem prevAt_nil (p : Option Char) : prevAt p [] = p := rfl


theorem prevAt_cons (p : Option Char) (c : Char) (a : List Char) :
    prevAt p (c :: a) = prevAt (some c) a := by
  unfold prevAt
  cases ha : a.getLast? with
  | some d => simp [List.getLast?_cons, ha]
  | none =>
    have : a = [] := by
      cases a with
      | nil => rfl
      | cons e a' => simp [List.getLast?_cons] at ha
    subst this
    rfl


theorem prevAt_append (p : Option Char) (u v : List Char) :
    prevAt p (u ++ v) = prevAt (prevAt p u) v := by
  induction u generalizing p with
  | nil => rfl
  | cons c u' ih => rw [List.cons_append, prevAt_cons, ih, prevAt_cons]


theorem prevAt_ne_nil {a : List Char} (p q : Option Char) (h : a ≠ []) :
    prevAt p a = prevAt q a := by
  unfold prevAt
  cases ha : a.getLast? with
  | some d => rfl
  | none =>
    cases a with
    | nil => exact absurd rfl h
    | cons e a' => simp [List.getLast?_cons] at ha


/-- Shift a `NoMatchFrom` hypothesis past a non-empty prefix. -/
theorem NoMatchFrom.shift {m : Option Char → List Char → Option Nat}
    {p : Option Char} {u v : List Char} (h : NoMatchFrom m p (u ++ v)) :
    NoMatchFrom m (prevAt p u) v := by
  intro a c b hv
  have := h (u ++ a) c b (by rw [hv, List.append_assoc])
  rw [prevAt_append] at this
  exact this


theorem subScan_of_nomatch (m : Option Char → List Char → Option Nat)
    (token : List Char) :
    ∀ (s : List Char) (p : Option Char), NoMatchFrom m p s →
      subScan m token p s = (s, 0) := by
  intro s
  induction s with
  | nil => intro p _; simp [subScan]
  | cons c t ih =>
    intro p h
    have hc : m p (c :: t) = none := h [] c t rfl
    have ht : NoMatchFrom m (some c) t := by
      have h2 := @NoMatchFrom.shift m p [c] t h
      simpa [prevAt_cons] using h2
    rw [subScan, hc]
    simp [ih (some c) ht]


/-- The scan realizes the relation, as long as the matcher never returns an
empty match. -/
theorem subScan_scanRel (m : Option Char → List Char → Option Nat)
    (token : List Char) (hz : ∀ p s, m p s ≠ some 0) :
    ∀ (s : List Char) (p : Option Char),
      ScanRel m token p s (subScan m token p s).1 := by
  suffices H : ∀ (n : Nat) (s : List Char), s.length ≤ n → ∀ p : Option Char,
      ScanRel m token p s (subScan m token p s).1 from
    fun s p => H s.length s (Nat.le_refl _) p
  intro n
  induction n with
  | zero =>
    intro s hs p
    have : s = [] := List.length_eq_zero.mp (Nat.le_zero.mp hs)
    subst this
    simp only [subScan]
    exact ScanRel.nil p
  | succ n ihn =>
    intro s hs p
    match s with
    | [] =>
      simp only [subScan]
      exact ScanRel.nil p
    | c :: t =>
      cases hm : m p (c :: t) with
      | none =>
        rw [subScan, hm]
        exact ScanRel.miss p c t _ hm
          (ihn t (by simp only [List.length_cons] at hs; omega) (some c))
      | some L =>
        match L, hm with
        | 0, hm => exact absurd hm (hz p (c :: t))
        | L + 1, hm =>
          rw [subScan, hm]
          exact ScanRel.hit p c t L _ hm
            (ihn ((c :: t).drop (L + 1))
              (by simp only [List.length_drop, List.length_cons] at *; omega) _)


/-! ### Splitting appends at a position -/

theorem append_split_lt {l y a : List Char} {d : Char} {b : List Char}
    (h : l ++ y = a ++ d :: b) (hlt : a.length < l.length) :
    ∃ rem, l = a ++ d :: rem ∧ b = rem ++ y := by
  have hle : a.length ≤ l.length := Nat.le_of_lt hlt
  have htake : l.take a.length = a := by
    have h1 := congrArg (List.take a.length) h
    rw [List.take_append_of_le_length hle, List.take_left] at h1
    exact h1
  have hdrop : l.drop a.length ++ y = d :: b := by
    have h2 := congrArg (List.drop a.length) h
    rw [List.drop_append_of_le_length hle, List.drop_left] at h2
    exact h2
  cases hld : l.drop a.length with
  | nil =>
    rw [hld] at hdrop
    have : l.length - a.length = 0 := by
      have := congrArg List.length hld
      simpa using this
    omega
  | cons d' rem =>
    rw [hld] at hdrop
    simp only [List.cons_append, List.cons.injEq] at hdrop
    obtain ⟨rfl, hb⟩ := hdrop
    refine ⟨rem, ?_, hb.symm⟩
    conv_lhs => rw [← List.take_append_drop a.length l]
    rw [htake, hld]


theorem append_split_ge {l y a : List Char} {d : Char} {b : List Char}
    (h : l ++ y = a ++ d :: b) (hge : l.length ≤ a.length) :
    ∃ a₂, a = l ++ a₂ ∧ y = a₂ ++ d :: b := by
  have htake : a.take l.length = l := by
    have h1 := congrArg (List.take l.length) h
    rw [List.take_left, List.take_append_of_le_length hge] at h1
    exact h1.symm
  have hdrop : y = a.drop l.length ++ d :: b := by
    have h2 := congrArg (List.drop l.length) h
    rw [List.drop_left, List.drop_append_of_le_length hge] at h2
    exact h2
  refine ⟨a.drop l.length, ?_, hdrop⟩
  conv_lhs => rw [← List.take_append_drop l.length a]
  rw [htake]


theorem mem_take_mid {A : List Char} {z : Char} {rest : List Char} {K : Nat}
    (h : A.length < K) : z ∈ (A ++ z :: rest).take K := by
  rw [List.take_append_eq_append_take]
  refine List.mem_append.mpr (Or.inr ?_)
  have : K - A.length = (K - A.length - 1) + 1 := by omega
  rw [this, List.take_succ_cons]
  exact List.mem_cons_self _ _


theorem MatcherFacts.pos {m : Option Char → List Char → Option Nat}
    (F : MatcherFacts m) : ∀ p s L, m p s = some L → 1 ≤ L := by
  intro p s L h
  by_contra hL
  have : L = 0 := by omega
  subst this
  have := F.ends_word p s 0 h
  simp [isWordOpt] at this


theorem MatcherFacts.ne_zero {m : Option Char → List Char → Option Nat}
    (F : MatcherFacts m) : ∀ p s, m p s ≠ some 0 := by
  intro p s h
  have := F.pos p s 0 h
  omega


/-! ### Decomposing a scan -/

theorem scanRel_decomp {m : Option Char → List Char → Option Nat}
    {tok : List Char} {p : Option Char} {x y : List Char}
    (h : ScanRel m tok p x y) :
    y = x ∨ ∃ u x₁ y₁ L, x = u ++ x₁ ∧ y = u ++ (tok ++ y₁) ∧
      m (prevAt p u) x₁ = some (L + 1) ∧
      ScanRel m tok (x₁.take (L + 1)).getLast? (x₁.drop (L + 1)) y₁ := by
  induction h with
  | nil p => exact Or.inl rfl
  | miss p c t y hm hrel ih =>
    rcases ih with rfl | ⟨u, x₁, y₁, L, rfl, rfl, hmx, hrel'⟩
    · exact Or.inl rfl
    · refine Or.inr ⟨c :: u, x₁, y₁, L, rfl, rfl, ?_, hrel'⟩
      rwa [prevAt_cons]
  | hit p c t L y hm hrel =>
    exact Or.inr ⟨[], c :: t, y, L, rfl, rfl, hm, hrel⟩


theorem scanRel_head {m : Option Char → List Char → Option Nat}
    {tok : List Char} {p : Option Char} {x y : List Char} (htok : tok ≠ [])
    (h : ScanRel m tok p x y) :
    y.head? = x.head? ∨ y.head? = tok.head? := by
  cases h with
  | nil p => exact Or.inl rfl
  | miss p c t y hm hrel => exact Or.inl rfl
  | hit p c t L y hm hrel =>
    right
    cases tok with
    | nil => exact absurd rfl htok
    | cons c0 tk => rfl


theorem prevAt_eq_getLast {a : List Char} (p : Option Char) (h : a ≠ []) :
    prevAt p a = a.getLast? := by
  unfold prevAt
  cases ha : a.getLast? with
  | some d => rfl
  | none =>
    cases a with
    | nil => exact absurd rfl h
    | cons e a' => simp [List.getLast?_cons] at ha


theorem boundary_true {p q : Option Char} (h : boundary p q = true) :
    isWordOpt p ≠ isWordOpt q := by
  unfold boundary at h
  simpa using h


/-- The no-rematch preservation argument: if wherever the scanner `m'` saw
nothing the checker `m` sees nothing either, then `m` sees nothing anywhere
in the scan's output. -/
theorem scan_preserves (m' m : Option Char → List Char → Option Nat)
    (tok : List Char) (F' : MatcherFacts m') (F : MatcherFacts m)
    (Ft : TokenFacts tok) :
    ∀ (p : Option Char) (x y : List Char), ScanRel m' tok p x y →
      (∀ a c b, x = a ++ c :: b → m' (prevAt p a) (c :: b) = none →
        m (prevAt p a) (c :: b) = none) →
      NoMatchFrom m p y := by
  intro p x y h
  induction h with
  | nil pp =>
    intro _ a c b hab
    exact absurd hab (by simp)
  | miss pp c t y hm' hrel ih =>
    intro H
    have H' : ∀ a c' b', t = a ++ c' :: b' →
        m' (prevAt (some c) a) (c' :: b') = none →
        m (prevAt (some c) a) (c' :: b') = none := by
      intro a c' b' ht hmm
      have h1 := H (c :: a) c' b' (by rw [ht, List.cons_append])
      rw [prevAt_cons] at h1
      exact h1 hmm
    intro a d b hy
    cases a with
    | cons a₀ a' =>
      simp only [List.cons_append, List.cons.injEq] at hy
      obtain ⟨rfl, hy'⟩ := hy
      rw [prevAt_cons]
      exact ih H' a' d b hy'
    | nil =>
      simp only [List.nil_append, List.cons.injEq] at hy
      obtain ⟨rfl, rfl⟩ := hy
      show m pp (c :: y) = none
      cases hK : m pp (c :: y) with
      | none => rfl
      | some K =>
        exfalso
        have hnone : m pp (c :: t) = none := H [] c t rfl hm'
        rcases scanRel_decomp hrel with rfl | ⟨u, x₁, y₁, L, hx, hyy, hmx, _⟩
        · rw [hnone] at hK
          cases hK
        · obtain ⟨w, htokeq, _, _, hat, hwlen⟩ := Ft.shape
          have hyform : c :: y = (c :: u) ++ '[' :: (w ++ ']' :: y₁) := by
            rw [hyy, htokeq]
            simp
          rw [hyform] at hK
          have hKle : K ≤ (c :: u).length := by
            by_contra hgt
            have hmem : '[' ∈ ((c :: u) ++ '[' :: (w ++ ']' :: y₁)).take K :=
              mem_take_mid (by omega)
            exact (F.no_brackets _ _ _ hK '[' hmem).1 rfl
          have hcond : K = (c :: u).length → isWordOpt x₁.head? = false := by
            intro hKA
            by_contra hword
            have hword' : isWordOpt x₁.head? = true := by
              cases hval : isWordOpt x₁.head?
              · exact absurd hval hword
              · rfl
            have hb1 := boundary_true (F'.start_bdry _ _ _ hmx)
            rw [hword'] at hb1
            have hpa : prevAt (some c) u = (c :: u).getLast? := by
              rw [← prevAt_cons (some c) c u]
              exact prevAt_eq_getLast (some c) (by simp)
            have hew := F.ends_word _ _ _ hK
            rw [hKA, List.take_left] at hew
            rw [hpa, hew] at hb1
            exact hb1 rfl
          obtain ⟨K', hK'⟩ := F.transfer pp (c :: u) (w ++ ']' :: y₁) x₁ K hK hKle hcond
          have heq : (c :: u) ++ x₁ = c :: t := by rw [hx]; rfl
          rw [heq, hnone] at hK'
          cases hK'
  | hit pp c t L y hm'x hrel ih =>
    intro H a d b hy
    obtain ⟨w, htokeq, hblw, hbrw, hat, hwlen⟩ := Ft.shape
    by_cases hlen : a.length < tok.length
    · obtain ⟨rem, htk, hb⟩ := append_split_lt hy hlen
      show m (prevAt pp a) (d :: b) = none
      cases hK : m (prevAt pp a) (d :: b) with
      | none => rfl
      | some K =>
        exfalso
        rw [htokeq] at htk
        cases a with
        | nil =>
          simp only [List.nil_append, List.cons.injEq] at htk
          obtain ⟨rfl, _⟩ := htk
          have hmem : '[' ∈ ('[' :: b).take K := by
            have hKpos := F.pos _ _ _ hK
            have hKe : K = K - 1 + 1 := by omega
            rw [hKe, List.take_succ_cons]
            exact List.mem_cons_self _ _
          exact (F.no_brackets _ _ _ hK '[' hmem).1 rfl
        | cons a₀ a₁ =>
          simp only [List.cons_append, List.cons.injEq] at htk
          obtain ⟨rfl, htk₁⟩ := htk
          by_cases h2 : a₁.length < w.length
          · obtain ⟨rem₁, hw, hrem⟩ := append_split_lt htk₁ h2
            have hbform : b = rem₁ ++ ']' :: y := by
              rw [hb, hrem]
              simp
            have hdb : d :: b = (d :: rem₁) ++ ']' :: y := by
              rw [hbform]
              rfl
            rw [hdb] at hK
            have hKle : K ≤ rem₁.length + 1 := by
              by_contra hgt
              have hmem : ']' ∈ ((d :: rem₁) ++ ']' :: y).take K :=
                mem_take_mid (by simp only [List.length_cons]; omega)
              exact (F.no_brackets _ _ _ hK ']' hmem).2 rfl
            rcases F.big_or_at _ _ _ hK with hbig | hatm
            · have hrl : rem₁.length + 1 ≤ w.length := by
                have := congrArg List.length hw
                simp only [List.length_append, List.length_cons] at this
                omega
              omega
            · have hsub : ((d :: rem₁) ++ ']' :: y).take K = (d :: rem₁).take K :=
                List.take_append_of_le_length (by simpa using hKle)
              rw [hsub] at hatm
              have hin : '@' ∈ d :: rem₁ := List.mem_of_mem_take hatm
              have : '@' ∈ w := by
                rw [hw]
                exact List.mem_append.mpr (Or.inr hin)
              exact hat this
          · obtain ⟨a₄, _, h4⟩ := append_split_ge htk₁ (Nat.le_of_not_lt h2)
            cases a₄ with
            | cons e a₅ => simp at h4
            | nil =>
              simp only [List.nil_append, List.cons.injEq] at h4
              obtain ⟨rfl, _⟩ := h4
              have hmem : ']' ∈ (']' :: b).take K := by
                have hKpos := F.pos _ _ _ hK
                have hKe : K = K - 1 + 1 := by omega
                rw [hKe, List.take_succ_cons]
                exact List.mem_cons_self _ _
              exact (F.no_brackets _ _ _ hK ']' hmem).2 rfl
    · obtain ⟨a₂, ha, hyy⟩ := append_split_ge hy (Nat.le_of_not_lt hlen)
      have H' : ∀ α c' β, (c :: t).drop (L + 1) = α ++ c' :: β →
          m' (prevAt ((c :: t).take (L + 1)).getLast? α) (c' :: β) = none →
          m (prevAt ((c :: t).take (L + 1)).getLast? α) (c' :: β) = none := by
        intro α c' β hdrop hmm
        have hx : c :: t = ((c :: t).take (L + 1) ++ α) ++ c' :: β := by
          conv_lhs => rw [← List.take_append_drop (L + 1) (c :: t)]
          rw [hdrop, List.append_assoc]
        have htne : (c :: t).take (L + 1) ≠ [] := by
          rw [List.take_succ_cons]
          simp
        have hpa : prevAt pp ((c :: t).take (L + 1) ++ α)
            = prevAt ((c :: t).take (L + 1)).getLast? α := by
          rw [prevAt_append, prevAt_eq_getLast pp htne]
        have h1 := H ((c :: t).take (L + 1) ++ α) c' β hx
        rw [hpa] at h1
        exact h1 hmm
      cases a₂ with
      | nil =>
        simp only [List.nil_append] at hyy
        subst ha
        have hprev : prevAt pp (tok ++ []) = some ']' := by
          rw [List.append_nil, htokeq,
            prevAt_eq_getLast pp (by simp)]
          simp [List.getLast?_append, List.getLast?_cons]
        rw [hprev]
        cases hK : m (some ']') (d :: b) with
        | none => rfl
        | some K =>
          exfalso
          have hsb := boundary_true (F.start_bdry _ _ _ hK)
          simp only [List.head?_cons, isWordOpt] at hsb
          have hdword : isWordChar d = true := by
            cases hval : isWordChar d
            · exact absurd (by rw [hval]; decide) hsb
            · rfl
          rcases scanRel_head (by rw [htokeq]; simp) hrel with hh | hh
          · have hend := F'.end_nonword _ _ _ hm'x
            rw [← hh, hyy] at hend
            simp only [List.head?_cons, isWordOpt] at hend
            rw [hdword] at hend
            exact Bool.noConfusion hend
          · rw [hyy, htokeq] at hh
            simp only [List.cons_append, List.head?_cons, Option.some.injEq] at hh
            rw [hh] at hdword
            exact absurd hdword (by decide)
      | cons e a₃ =>
        have hmn := ih H' (e :: a₃) d b hyy
        have hpe : prevAt pp a = prevAt ((c :: t).take (L + 1)).getLast? (e :: a₃) := by
          rw [ha, prevAt_append]
          exact prevAt_ne_nil _ _ (by simp)
        rw [hpe]
        exact hmn


theorem digit_word {c : Char} (h : isDigitChar c = true) : isWordChar c = true := by
  simp [isWordChar, h]


theorem upperAlnum_word {c : Char} (h : upperAlnumChar c = true) :
    isWordChar c = true := by
  simp only [upperAlnumChar, Bool.or_eq_true] at h
  rcases h with h | h
  · simp [isWordChar, isAlphaChar, h]
  · simp [isWordChar, h]


theorem okChar_spec {c : Char} (h : okChar c = true) :
    c ≠ '[' ∧ c ≠ ']' ∧ c ≠ '@' := by
  simp only [okChar, Bool.and_eq_true, Bool.not_eq_true',
    decide_eq_false_iff_not] at h
  exact ⟨h.1.1, h.1.2, h.2⟩


theorem okChar_of_ne {c : Char} (h1 : c ≠ '[') (h2 : c ≠ ']') (h3 : c ≠ '@') :
    okChar c = true := by
  simp only [okChar, Bool.and_eq_true, Bool.not_eq_true', decide_eq_false_iff_not]
  exact ⟨⟨h1, h2⟩, h3⟩


theorem itemPred_ok {it : TItem} (hbf : itemBF it = true) {c : Char}
    (hc : itemPred it c = true) : okChar c = true := by
  cases it with
  | lit c0 =>
    have : c = c0 := of_decide_eq_true hc
    rw [this]
    exact hbf
  | digits n =>
    simp only [itemPred] at hc
    refine okChar_of_ne ?_ ?_ ?_ <;> rintro rfl <;> exact absurd hc (by decide)
  | sepPhone =>
    refine okChar_of_ne ?_ ?_ ?_ <;> rintro rfl <;> exact absurd hc (by decide)
  | sepCard =>
    refine okChar_of_ne ?_ ?_ ?_ <;> rintro rfl <;> exact absurd hc (by decide)
  | upper n =>
    simp only [itemPred] at hc
    refine okChar_of_ne ?_ ?_ ?_ <;> rintro rfl <;> exact absurd hc (by decide)


theorem endOK_pred_word {it : TItem} (he : endOK it = true) {c : Char}
    (hp : itemPred it c = true) : isWordChar c = true := by
  cases it with
  | lit c0 => simp [endOK] at he
  | sepPhone => simp [endOK] at he
  | sepCard => simp [endOK] at he
  | digits n => exact digit_word hp
  | upper n => exact upperAlnum_word hp


theorem endOK_width {it : TItem} (he : endOK it = true) : 1 ≤ itemWidth it := by
  cases it with
  | lit c0 => simp [endOK] at he
  | sepPhone => simp [endOK] at he
  | sepCard => simp [endOK] at he
  | digits n =>
    cases n with
    | zero => simp [endOK] at he
    | succ k => simp only [itemWidth]; omega
  | upper n =>
    cases n with
    | zero => simp [endOK] at he
    | succ k => simp only [itemWidth]; omega


theorem classN_spec (p : Char → Bool) :
    ∀ (n : Nat) (s rest : List Char), classN p n s = some rest →
      ∃ u, s = u ++ rest ∧ u.length = n ∧ (∀ c ∈ u, p c = true) ∧
        ∀ z, classN p n (u ++ z) = some z := by
  intro n
  induction n with
  | zero =>
    intro s rest h
    have hs : s = rest := by simpa [classN] using h
    exact ⟨[], by simp [hs], rfl, by simp, fun z => rfl⟩
  | succ n ih =>
    intro s rest h
    cases s with
    | nil => simp [classN] at h
    | cons c t =>
      cases hp : p c with
      | false => simp [classN, hp] at h
      | true =>
        have h' : classN p n t = some rest := by simpa [classN, hp] using h
        obtain ⟨u, hu, hlen, hpred, hloc⟩ := ih t rest h'
        refine ⟨c :: u, by rw [hu]; rfl, by simp [hlen], ?_, ?_⟩
        · intro d hd
          rcases List.mem_cons.mp hd with rfl | hd
          · exact hp
          · exact hpred d hd
        · intro z
          show classN p (n + 1) (c :: (u ++ z)) = some z
          simp only [classN, hp, if_true]
          exact hloc z


theorem matchItem_spec (it : TItem) (s rest : List Char)
    (h : matchItem it s = some rest) :
    ∃ u, s = u ++ rest ∧ u.length = itemWidth it ∧
      (∀ c ∈ u, itemPred it c = true) ∧ ∀ z, matchItem it (u ++ z) = some z := by
  cases it with
  | lit c0 =>
    cases s with
    | nil => simp [matchItem] at h
    | cons d t =>
      by_cases hd : d = c0
      · subst hd
        have ht : t = rest := by simpa [matchItem] using h
        refine ⟨[d], by rw [ht]; rfl, rfl, ?_, ?_⟩
        · intro c hc
          rcases List.mem_cons.mp hc with rfl | hc
          · simp [itemPred]
          · exact absurd hc (List.not_mem_nil c)
        · intro z
          simp [matchItem]
      · simp [matchItem, hd] at h
  | digits n => exact classN_spec isDigitChar n s rest h
  | sepPhone => exact classN_spec sepChar 1 s rest h
  | sepCard => exact classN_spec cardSepChar 1 s rest h
  | upper n => exact classN_spec upperAlnumChar n s rest h


theorem matchTemplate_spec :
    ∀ (t : List TItem) (s rest : List Char), matchTemplate t s = some rest →
      ∃ u, s = u ++ rest ∧ u.length = tWidth t ∧
        (∀ c ∈ u, ∃ it ∈ t, itemPred it c = true) ∧
        (∀ z, matchTemplate t (u ++ z) = some z) ∧
        (∀ it, t.getLast? = some it → endOK it = true →
          isWordOpt u.getLast? = true) := by
  intro t
  induction t with
  | nil =>
    intro s rest h
    have hs : s = rest := by simpa [matchTemplate] using h
    refine ⟨[], by simp [hs], rfl, by simp, fun z => rfl, ?_⟩
    intro it hit
    simp at hit
  | cons it t' ih =>
    intro s rest h
    cases hmi : matchItem it s with
    | none => simp [matchTemplate, hmi] at h
    | some s' =>
      have h' : matchTemplate t' s' = some rest := by
        simpa [matchTemplate, hmi] using h
      obtain ⟨u₁, hs1, hl1, hp1, hloc1⟩ := matchItem_spec it s s' hmi
      obtain ⟨u₂, hs2, hl2, hp2, hloc2, hlast2⟩ := ih s' rest h'
      refine ⟨u₁ ++ u₂, ?_, ?_, ?_, ?_, ?_⟩
      · rw [hs1, hs2, List.append_assoc]
      · simp only [List.length_append, hl1, hl2, tWidth, List.map_cons,
          List.sum_cons]
      · intro c hc
        rcases List.mem_append.mp hc with hc | hc
        · exact ⟨it, List.mem_cons_self _ _, hp1 c hc⟩
        · obtain ⟨it2, hm, hp⟩ := hp2 c hc
          exact ⟨it2, List.mem_cons_of_mem _ hm, hp⟩
      · intro z
        rw [List.append_assoc]
        show matchTemplate (it :: t') (u₁ ++ (u₂ ++ z)) = some z
        simp only [matchTemplate, hloc1 (u₂ ++ z)]
        exact hloc2 z
      · intro jt hj hend
        cases t' with
        | nil =>
          have hji : jt = it := by
            have : (it :: ([] : List TItem)).getLast? = some it := rfl
            rw [this] at hj
            exact (Option.some.inj hj).symm
          subst hji
          have hu2 : u₂ = [] := List.length_eq_zero.mp (by
            rw [hl2]
            rfl)
          subst hu2
          rw [List.append_nil]
          have hw1 : 1 ≤ u₁.length := by
            rw [hl1]
            exact endOK_width hend
          have hne : u₁ ≠ [] := by
            intro he
            rw [he] at hw1
            simp at hw1
          have hmem := List.getLast_mem hne
          have hword := endOK_pred_word hend (hp1 _ hmem)
          rw [List.getLast?_eq_getLast _ hne]
          simpa [isWordOpt] using hword
        | cons it2 t'' =>
          have hj' : (it2 :: t'').getLast? = some jt := by
            rw [← List.getLast?_cons_cons]
            exact hj
          have hw2 := hlast2 jt hj' hend
          cases hu2 : u₂.getLast? with
          | none =>
            rw [hu2] at hw2
            simp [isWordOpt] at hw2
          | some x =>
            rw [hu2] at hw2
            rw [List.getLast?_append, hu2]
            exact hw2


theorem templMatch_elim {ts : List (List TItem)} {p : Option Char}
    {s : List Char} {L : Nat} (h : templMatch ts p s = some L) :
    boundary p s.head? = true ∧ ∃ t ∈ ts, ∃ rest,
      matchTemplate t s = some rest ∧ isWordOpt rest.head? = false ∧
      L = s.length - rest.length := by
  cases hb : boundary p s.head? with
  | false =>
    unfold templMatch at h
    rw [hb] at h
    simp at h
  | true =>
    have h' : s.length ≥ 0 := Nat.zero_le _
    unfold templMatch at h
    rw [hb] at h
    simp only [Bool.not_true, Bool.false_eq_true, if_false] at h
    obtain ⟨t, ht, hf⟩ := List.exists_of_findSome?_eq_some h
    refine ⟨rfl, t, ht, ?_⟩
    cases hmt : matchTemplate t s with
    | none => rw [hmt] at hf; simp at hf
    | some rest =>
      rw [hmt] at hf
      cases hw : isWordOpt rest.head? with
      | true => simp [hw] at hf
      | false =>
        simp only [hw, Bool.false_eq_true, if_false, Option.some.injEq] at hf
        exact ⟨rest, rfl, hw, hf.symm⟩


theorem findSome?_some_of_mem {α β : Type} {f : α → Option β} :
    ∀ {l : List α} {t : α} {v : β}, t ∈ l → f t = some v →
      ∃ w, l.findSome? f = some w := by
  intro l
  induction l with
  | nil =>
    intro t v ht _
    exact absurd ht (List.not_mem_nil t)
  | cons a l' ih =>
    intro t v ht hf
    rw [List.findSome?_cons]
    cases ha : f a with
    | some w => exact ⟨w, rfl⟩
    | none =>
      rcases List.mem_cons.mp ht with rfl | ht'
      · rw [ha] at hf
        cases hf
      · exact ih ht' hf


theorem templMatch_facts (ts : List (List TItem))
    (h1 : ∀ t ∈ ts, (t.getLast?.map endOK).getD false = true)
    (h2 : ∀ t ∈ ts, ∀ it ∈ t, itemBF it = true)
    (h3 : ∀ t ∈ ts, 8 ≤ tWidth t) :
    MatcherFacts (templMatch ts) := by
  refine ⟨?_, ?_, ?_, ?_, ?_, ?_, ?_⟩
  · intro p s L h
    obtain ⟨_, t, ht, rest, hmt, hwc, hL⟩ := templMatch_elim h
    rw [hL]
    exact Nat.sub_le _ _
  · intro p s L h
    obtain ⟨_, t, ht, rest, hmt, hwc, hL⟩ := templMatch_elim h
    obtain ⟨u, hsu, hul, hup, _, _⟩ := matchTemplate_spec t s rest hmt
    have hslen : s.length = u.length + rest.length := by rw [hsu]; simp
    have hLu : L = u.length := by omega
    have htake : s.take L = u := by rw [hLu, hsu, List.take_left]
    rw [htake]
    intro c hc
    obtain ⟨it, hit, hpred⟩ := hup c hc
    have hok := okChar_spec (itemPred_ok (h2 t ht it hit) hpred)
    exact ⟨hok.1, hok.2.1⟩
  · intro p s L h
    obtain ⟨_, t, ht, rest, hmt, hwc, hL⟩ := templMatch_elim h
    obtain ⟨u, hsu, hul, _, _, _⟩ := matchTemplate_spec t s rest hmt
    have hslen : s.length = u.length + rest.length := by rw [hsu]; simp
    have hLu : L = u.length := by omega
    left
    rw [hLu, hul]
    exact h3 t ht
  · intro p s L h
    obtain ⟨_, t, ht, rest, hmt, hwc, hL⟩ := templMatch_elim h
    obtain ⟨u, hsu, hul, _, _, hlast⟩ := matchTemplate_spec t s rest hmt
    have hslen : s.length = u.length + rest.length := by rw [hsu]; simp
    have hLu : L = u.length := by omega
    have htake : s.take L = u := by rw [hLu, hsu, List.take_left]
    rw [htake]
    have hh := h1 t ht
    cases hg : t.getLast? with
    | none => rw [hg] at hh; simp at hh
    | some it =>
      rw [hg] at hh
      simp only [Option.map_some', Option.getD_some] at hh
      exact hlast it hg hh
  · intro p s L h
    obtain ⟨_, t, ht, rest, hmt, hwc, hL⟩ := templMatch_elim h
    obtain ⟨u, hsu, hul, _, _, _⟩ := matchTemplate_spec t s rest hmt
    have hslen : s.length = u.length + rest.length := by rw [hsu]; simp
    have hLu : L = u.length := by omega
    have hdrop : s.drop L = rest := by rw [hLu, hsu, List.drop_left]
    rw [hdrop]
    exact hwc
  · intro p s L h
    exact (templMatch_elim h).1
  · intro p a brest b' L h hle hcond
    obtain ⟨hb, t, ht, rest, hmt, hwc, hL⟩ := templMatch_elim h
    obtain ⟨u, hsu, hul, _, hloc, _⟩ := matchTemplate_spec t _ rest hmt
    have hslen : (a ++ '[' :: brest).length = u.length + rest.length := by
      rw [hsu]; simp
    have hLu : L = u.length := by
      simp only [List.length_append, List.length_cons] at hslen hL
      omega
    have hL8 : 8 ≤ L := by
      rw [hLu, hul]
      exact h3 t ht
    have hu : u = a.take L := by
      have hx : (a ++ '[' :: brest).take L = u := by rw [hLu, hsu, List.take_left]
      rw [List.take_append_of_le_length hle] at hx
      exact hx.symm
    have hrest : rest = a.drop L ++ '[' :: brest := by
      have hx : (a ++ '[' :: brest).drop L = rest := by rw [hLu, hsu, List.drop_left]
      rw [List.drop_append_of_le_length hle] at hx
      exact hx.symm
    have hnew : a ++ b' = u ++ (a.drop L ++ b') := by
      rw [hu, ← List.append_assoc, List.take_append_drop]
    have hcheck : isWordOpt (a.drop L ++ b').head? = false := by
      cases hd : a.drop L with
      | nil =>
        have hla : a.length ≤ L := by
          have hlen0 := congrArg List.length hd
          simp only [List.length_drop, List.length_nil] at hlen0
          omega
        rw [List.nil_append]
        exact hcond (Nat.le_antisymm hle hla)
      | cons d dr =>
        have hhd : rest.head? = some d := by rw [hrest, hd]; rfl
        rw [hhd] at hwc
        rw [List.cons_append, List.head?_cons]
        exact hwc
    have hane : a ≠ [] := by
      intro he
      rw [he] at hle
      simp only [List.length_nil, Nat.le_zero] at hle
      omega
    have hbnew : boundary p (a ++ b').head? = true := by
      cases a with
      | nil => exact absurd rfl hane
      | cons a₀ a' =>
        simp only [List.cons_append, List.head?_cons] at hb ⊢
        exact hb
    have hm2 : matchTemplate t (a ++ b') = some (a.drop L ++ b') := by
      rw [hnew]
      exact hloc _
    have hft : (fun t => match matchTemplate t (a ++ b') with
        | some rest => if isWordOpt rest.head? then none
            else some ((a ++ b').length - rest.length)
        | none => none) t
        = some ((a ++ b').length - (a.drop L ++ b').length) := by
      simp only [hm2, hcheck, Bool.false_eq_true, if_false]
    obtain ⟨w, hw⟩ := @findSome?_some_of_mem (List TItem) Nat
      (fun t => match matchTemplate t (a ++ b') with
        | some rest => if isWordOpt rest.head? then none
            else some ((a ++ b').length - rest.length)
        | none => none) ts t ((a ++ b').length - (a.drop L ++ b').length) ht hft
    refine ⟨w, ?_⟩
    unfold templMatch
    rw [hbnew]
    simpa using hw


theorem phoneMatch_facts : MatcherFacts phoneMatch :=
  templMatch_facts phoneTemplates (by decide) (by decide) (by decide)


theorem ssnMatch_facts : MatcherFacts ssnMatch :=
  templMatch_facts ssnTemplates (by decide) (by decide) (by decide)


theorem cardMatch_facts : MatcherFacts cardMatch :=
  templMatch_facts cardTemplates (by decide) (by decide) (by decide)


theorem awsMatch_facts : MatcherFacts awsMatch :=
  templMatch_facts awsTemplates (by decide) (by decide) (by decide)


theorem tokenFacts_email : TokenFacts "[EMAIL]".toList := ⟨"EMAIL".toList, by decide⟩


theorem tokenFacts_phone : TokenFacts "[PHONE]".toList := ⟨"PHONE".toList, by decide⟩


theorem tokenFacts_ssn : TokenFacts "[SSN]".toList := ⟨"SSN".toList, by decide⟩


theorem tokenFacts_card : TokenFacts "[CARD]".toList := ⟨"CARD".toList, by decide⟩


theorem tokenFacts_aws : TokenFacts "[AWS_KEY]".toList := ⟨"AWS_KEY".toList, by decide⟩


theorem headOr_match (o q : Option Char) :
    (match o with | some c => some c | none => q) = o.or q := by
  cases o <;> rfl


theorem emailTld_eq_foldl (R : List Char) (q : Option Char) :
    emailTld R q = (List.range R.length).foldl (tldStep R q) none := rfl


theorem ite_some {c : Prop} [Decidable c] {x k : Nat} {acc : Option Nat}
    (h : acc = some k) : ∃ k', (if c then some x else acc) = some k' := by
  by_cases hc : c
  · exact ⟨x, if_pos hc⟩
  · rw [if_neg hc]
    exact ⟨k, h⟩


theorem tldStep_valid {R : List Char} {q : Option Char} {j : Nat}
    (h : tldValid R q j) (acc : Option Nat) :
    tldStep R q acc j = some (kOf R j) := by
  obtain ⟨h1, h2, h3, h4⟩ := h
  unfold tldStep
  rw [if_pos ⟨h1, h2⟩]
  simp only [headOr_match, h4, Bool.not_false, Bool.and_true]
  rw [if_pos (decide_eq_true h3)]
  rfl


theorem tldStep_some_of {R : List Char} {q : Option Char} {j : Nat}
    {acc : Option Nat} {k : Nat} (h : tldStep R q acc j = some k) :
    acc = some k ∨ (tldValid R q j ∧ k = kOf R j) := by
  unfold tldStep at h
  by_cases h1 : 1 ≤ j ∧ R.getD j ' ' = '.'
  · rw [if_pos h1] at h
    simp only [headOr_match] at h
    split at h
    · rename_i hcond
      simp only [Bool.and_eq_true, decide_eq_true_eq, Bool.not_eq_true'] at hcond
      right
      exact ⟨⟨h1.1, h1.2, hcond.1, hcond.2⟩, (Option.some.inj h).symm⟩
    · exact Or.inl h
  · rw [if_neg h1] at h
    exact Or.inl h


theorem tldStep_mono {R : List Char} {q : Option Char} {j : Nat}
    {acc : Option Nat} {k : Nat} (h : acc = some k) :
    ∃ k', tldStep R q acc j = some k' := by
  unfold tldStep
  by_cases h1 : 1 ≤ j ∧ R.getD j ' ' = '.'
  · rw [if_pos h1]
    simp only [headOr_match]
    exact ite_some h
  · rw [if_neg h1]
    exact ⟨k, h⟩


theorem foldl_pres {α β : Type} (f : β → α → β) (P : β → Prop) :
    ∀ (l : List α) (init : β), P init →
      (∀ b a, a ∈ l → P b → P (f b a)) → P (l.foldl f init) := by
  intro l
  induction l with
  | nil => intro init h _; exact h
  | cons a l' ih =>
    intro init h hstep
    rw [List.foldl_cons]
    exact ih (f init a) (hstep init a (List.mem_cons_self _ _) h)
      (fun b x hx hb => hstep b x (List.mem_cons_of_mem _ hx) hb)


theorem emailTld_spec {R : List Char} {q : Option Char} {k : Nat}
    (h : emailTld R q = some k) :
    ∃ j, j < R.length ∧ tldValid R q j ∧ k = kOf R j := by
  rw [emailTld_eq_foldl] at h
  have hP : ∀ k', (List.range R.length).foldl (tldStep R q) none = some k' →
      ∃ j, j < R.length ∧ tldValid R q j ∧ k' = kOf R j := by
    have := foldl_pres (tldStep R q)
      (fun o => ∀ k', o = some k' → ∃ j, j < R.length ∧ tldValid R q j ∧ k' = kOf R j)
      (List.range R.length) none (by intro k' hk'; cases hk')
      (by
        intro b a ha hb k' hk'
        rcases tldStep_some_of hk' with hacc | ⟨hv, hkk⟩
        · exact hb k' hacc
        · exact ⟨a, List.mem_range.mp ha, hv, hkk⟩)
    exact this
  exact hP k h


theorem foldl_tld_some {R : List Char} {q : Option Char} :
    ∀ (l : List Nat) (acc : Option Nat) (k : Nat), acc = some k →
      ∃ k', l.foldl (tldStep R q) acc = some k' := by
  intro l
  induction l with
  | nil => intro acc k h; exact ⟨k, h⟩
  | cons a l' ih =>
    intro acc k h
    rw [List.foldl_cons]
    obtain ⟨k', hk'⟩ := tldStep_mono h
    exact ih _ k' hk'


theorem emailTld_some_of_valid {R : List Char} {q : Option Char} {j : Nat}
    (hj : j < R.length) (hv : tldValid R q j) :
    ∃ k, emailTld R q = some k := by
  rw [emailTld_eq_foldl]
  obtain ⟨s, t, hst⟩ := List.append_of_mem (List.mem_range.mpr hj)
  rw [hst, List.foldl_append, List.foldl_cons]
  exact foldl_tld_some t _ (kOf R j) (tldStep_valid hv _)


theorem takeWhile_take (p : Char → Bool) (s : List Char) :
    s.take (s.takeWhile p).length = s.takeWhile p := by
  induction s with
  | nil => rfl
  | cons c t ih =>
    rw [List.takeWhile_cons]
    cases hp : p c with
    | true => simp [List.take_succ_cons, ih]
    | false => simp


theorem takeWhile_length_le (p : Char → Bool) (s : List Char) :
    (s.takeWhile p).length ≤ s.length := by
  induction s with
  | nil => simp
  | cons c t ih =>
    rw [List.takeWhile_cons]
    cases hp : p c with
    | true =>
      rw [if_pos rfl]
      simp only [List.length_cons]
      omega
    | false => simp


theorem takeWhile_all {p : Char → Bool} {s : List Char}
    (h : (s.takeWhile p).length = s.length) : s.takeWhile p = s := by
  have ht := takeWhile_take p s
  rw [h, List.take_length] at ht
  exact ht.symm


theorem takeWhile_prefix_eq (p : Char → Bool) (s : List Char) :
    s = s.takeWhile p ++ s.drop (s.takeWhile p).length := by
  conv_lhs => rw [← List.take_append_drop (s.takeWhile p).length s]
  rw [takeWhile_take]


theorem localChar_ok {c : Char} (h : localChar c = true) : okChar c = true := by
  refine okChar_of_ne ?_ ?_ ?_ <;> rintro rfl <;> exact absurd h (by decide)


theorem domainChar_ok {c : Char} (h : domainChar c = true) : okChar c = true := by
  refine okChar_of_ne ?_ ?_ ?_ <;> rintro rfl <;> exact absurd h (by decide)


theorem alpha_word {c : Char} (h : isAlphaChar c = true) : isWordChar c = true := by
  simp [isWordChar, h]


theorem emailMatch_elim {p : Option Char} {s : List Char} {L : Nat}
    (h : emailMatch p s = some L) :
    s.takeWhile localChar ≠ [] ∧ boundary p s.head? = true ∧
      ∃ rest2, s.drop (s.takeWhile localChar).length = '@' :: rest2 ∧
      ∃ k, emailTld (rest2.takeWhile domainChar)
          ((rest2.drop (rest2.takeWhile domainChar).length).head?) = some k ∧
        L = (s.takeWhile localChar).length + 1 + k := by
  simp only [emailMatch] at h
  cases hemp : (s.takeWhile localChar).isEmpty with
  | true => rw [if_pos hemp] at h; exact Option.noConfusion h
  | false =>
    rw [if_neg (by rw [hemp]; exact Bool.false_ne_true)] at h
    cases hb : boundary p s.head? with
    | false =>
      rw [if_pos (by rw [hb]; rfl)] at h
      exact Option.noConfusion h
    | true =>
      rw [if_neg (by rw [hb]; decide)] at h
      refine ⟨List.isEmpty_eq_false.mp hemp, rfl, ?_⟩
      split at h
      · rename_i rest2 heq
        split at h
        · rename_i k hk
          exact ⟨rest2, heq, k, hk, (Option.some.inj h).symm⟩
        · exact Option.noConfusion h
      · exact Option.noConfusion h


theorem emailMatch_shape {p : Option Char} {s : List Char} {L : Nat}
    (h : emailMatch p s = some L) :
    ∃ lc rest2 R dtail letters j,
      lc = s.takeWhile localChar ∧
      R = rest2.takeWhile domainChar ∧
      dtail = rest2.drop R.length ∧
      letters = (R.drop (j + 1)).takeWhile isAlphaChar ∧
      lc ≠ [] ∧ boundary p s.head? = true ∧
      s = lc ++ '@' :: rest2 ∧
      rest2 = R ++ dtail ∧
      j < R.length ∧ 1 ≤ j ∧ R.getD j ' ' = '.' ∧ 2 ≤ letters.length ∧
      isWordOpt ((R.drop (j + 1 + letters.length)).head?.or dtail.head?) = false ∧
      L = lc.length + 1 + (j + 1 + letters.length) := by
  obtain ⟨hlc, hb, rest2, heq, k, htld, hL⟩ := emailMatch_elim h
  obtain ⟨j, hjlt, hjv, hkk⟩ := emailTld_spec htld
  obtain ⟨hj1, hjdot, hjlen, hjafter⟩ := hjv
  refine ⟨s.takeWhile localChar, rest2, rest2.takeWhile domainChar,
    rest2.drop (rest2.takeWhile domainChar).length,
    ((rest2.takeWhile domainChar).drop (j + 1)).takeWhile isAlphaChar, j,
    rfl, rfl, rfl, rfl, hlc, hb, ?_, takeWhile_prefix_eq domainChar rest2,
    hjlt, hj1, hjdot, hjlen, hjafter, by rw [hL, hkk]; rfl⟩
  conv_lhs => rw [← List.take_append_drop (s.takeWhile localChar).length s]
  rw [takeWhile_take, heq]


theorem email_le_len {p : Option Char} {s : List Char} {L : Nat}
    (h : emailMatch p s = some L) : L ≤ s.length := by
  obtain ⟨lc, rest2, R, dtail, letters, j, hlcd, hRd, hdd, hld, hne, hb, hs, hr2,
    hjlt, hj1, hjdot, hjlen, haft, hL⟩ := emailMatch_shape h
  have h1 : letters.length ≤ R.length - (j + 1) := by
    rw [hld]
    have := takeWhile_length_le isAlphaChar (R.drop (j + 1))
    simp only [List.length_drop] at this
    exact this
  have h2 : R.length ≤ rest2.length := by
    rw [hRd]
    exact takeWhile_length_le _ _
  have h3 : s.length = lc.length + 1 + rest2.length := by
    rw [hs]
    simp only [List.length_append, List.length_cons]
    omega
  omega


theorem email_take_shape {p : Option Char} {s : List Char} {L : Nat}
    (h : emailMatch p s = some L) :
    ∃ lc rest2 R dtail letters j,
      lc = s.takeWhile localChar ∧
      R = rest2.takeWhile domainChar ∧
      dtail = rest2.drop R.length ∧
      letters = (R.drop (j + 1)).takeWhile isAlphaChar ∧
      lc ≠ [] ∧ boundary p s.head? = true ∧
      s = lc ++ '@' :: rest2 ∧ rest2 = R ++ dtail ∧
      j < R.length ∧ 1 ≤ j ∧ R.getD j ' ' = '.' ∧ 2 ≤ letters.length ∧
      isWordOpt ((R.drop (j + 1 + letters.length)).head?.or dtail.head?) = false ∧
      L = lc.length + 1 + (j + 1 + letters.length) ∧
      j + 1 + letters.length ≤ R.length ∧
      s.take L = lc ++ '@' :: (R.take (j + 1) ++ letters) ∧
      s.drop L = R.drop (j + 1 + letters.length) ++ dtail := by
  obtain ⟨lc, rest2, R, dtail, letters, j, hlcd, hRd, hdd, hld, hne, hb, hs, hr2,
    hjlt, hj1, hjdot, hjlen, haft, hL⟩ := emailMatch_shape h
  have hkR : j + 1 + letters.length ≤ R.length := by
    have h1 : letters.length ≤ R.length - (j + 1) := by
      rw [hld]
      have := takeWhile_length_le isAlphaChar (R.drop (j + 1))
      simp only [List.length_drop] at this
      exact this
    omega
  have hRk : R.take (j + 1 + letters.length) = R.take (j + 1) ++ letters := by
    rw [List.take_add]
    congr 1
    rw [hld]
    exact takeWhile_take isAlphaChar (R.drop (j + 1))
  have hr2take : rest2.take (j + 1 + letters.length)
      = R.take (j + 1) ++ letters := by
    rw [hr2, List.take_append_of_le_length hkR, hRk]
  have hr2drop : rest2.drop (j + 1 + letters.length)
      = R.drop (j + 1 + letters.length) ++ dtail := by
    rw [hr2, List.drop_append_of_le_length hkR]
  refine ⟨lc, rest2, R, dtail, letters, j, hlcd, hRd, hdd, hld, hne, hb, hs, hr2,
    hjlt, hj1, hjdot, hjlen, haft, hL, hkR, ?_, ?_⟩
  · rw [hL, hs, List.take_append_eq_append_take,
      List.take_all_of_le (by omega : lc.length ≤ lc.length + 1 + (j + 1 + letters.length))]
    congr 1
    have he : lc.length + 1 + (j + 1 + letters.length) - lc.length
        = (j + 1 + letters.length) + 1 := by omega
    rw [he, List.take_succ_cons, hr2take]
  · rw [hL, hs, List.drop_append_eq_append_drop,
      List.drop_eq_nil_of_le (by omega : lc.length ≤ lc.length + 1 + (j + 1 + letters.length))]
    have he : lc.length + 1 + (j + 1 + letters.length) - lc.length
        = (j + 1 + letters.length) + 1 := by omega
    rw [he, List.nil_append, List.drop_succ_cons, hr2drop]


theorem mem_of_getLast? {l : List Char} {x : Char} (h : l.getLast? = some x) :
    x ∈ l := by
  cases l with
  | nil => cases h
  | cons a t =>
    have hne : (a :: t) ≠ ([] : List Char) := by simp
    rw [List.getLast?_eq_getLast _ hne] at h
    exact (Option.some.inj h) ▸ List.getLast_mem hne


theorem email_no_brackets {p : Option Char} {s : List Char} {L : Nat}
    (h : emailMatch p s = some L) : ∀ c ∈ s.take L, c ≠ '[' ∧ c ≠ ']' := by
  obtain ⟨lc, rest2, R, dtail, letters, j, hlcd, hRd, hdd, hld, hne, hb, hs, hr2,
    hjlt, hj1, hjdot, hjlen, haft, hL, hkR, htake, hdrop⟩ := email_take_shape h
  rw [htake]
  intro c hc
  rcases List.mem_append.mp hc with hc | hc
  · have hok := okChar_spec (localChar_ok
      (by rw [hlcd] at hc; exact List.mem_takeWhile_imp hc))
    exact ⟨hok.1, hok.2.1⟩
  · rcases List.mem_cons.mp hc with rfl | hc
    · exact ⟨by decide, by decide⟩
    · rcases List.mem_append.mp hc with hc | hc
      · have hcr : c ∈ R := List.mem_of_mem_take hc
        have hok := okChar_spec (domainChar_ok
          (by rw [hRd] at hcr; exact List.mem_takeWhile_imp hcr))
        exact ⟨hok.1, hok.2.1⟩
      · have hca : isAlphaChar c = true := by
          rw [hld] at hc
          exact List.mem_takeWhile_imp hc
        constructor <;> rintro rfl <;> exact absurd hca (by decide)


theorem email_at_mem {p : Option Char} {s : List Char} {L : Nat}
    (h : emailMatch p s = some L) : '@' ∈ s.take L := by
  obtain ⟨lc, rest2, R, dtail, letters, j, hlcd, hRd, hdd, hld, hne, hb, hs, hr2,
    hjlt, hj1, hjdot, hjlen, haft, hL, hkR, htake, hdrop⟩ := email_take_shape h
  rw [htake]
  exact List.mem_append.mpr (Or.inr (List.mem_cons_self _ _))


theorem email_ends_word {p : Option Char} {s : List Char} {L : Nat}
    (h : emailMatch p s = some L) : isWordOpt (s.take L).getLast? = true := by
  obtain ⟨lc, rest2, R, dtail, letters, j, hlcd, hRd, hdd, hld, hne, hb, hs, hr2,
    hjlt, hj1, hjdot, hjlen, haft, hL, hkR, htake, hdrop⟩ := email_take_shape h
  rw [htake]
  have hlett_all : ∀ x ∈ letters, isAlphaChar x = true := by
    intro x hx
    rw [hld] at hx
    exact List.mem_takeWhile_imp hx
  have hlne : letters ≠ [] := by
    intro he
    rw [he] at hjlen
    simp at hjlen
  rw [List.getLast?_append, ← List.cons_append, List.getLast?_append]
  cases hgl : letters.getLast? with
  | none => exact absurd (List.getLast?_eq_none.mp hgl) hlne
  | some x =>
    rw [Option.or_some, Option.or_some]
    simpa [isWordOpt] using alpha_word (hlett_all x (mem_of_getLast? hgl))


theorem email_end_nonword {p : Option Char} {s : List Char} {L : Nat}
    (h : emailMatch p s = some L) : isWordOpt (s.drop L).head? = false := by
  obtain ⟨lc, rest2, R, dtail, letters, j, hlcd, hRd, hdd, hld, hne, hb, hs, hr2,
    hjlt, hj1, hjdot, hjlen, haft, hL, hkR, htake, hdrop⟩ := email_take_shape h
  rw [hdrop, List.head?_append]
  exact haft


theorem takeWhile_append_stop {p : Char → Bool} {u : List Char}
    (h : (u.takeWhile p).length ≠ u.length) (v : List Char) :
    (u ++ v).takeWhile p = u.takeWhile p := by
  rw [List.takeWhile_append]
  exact if_neg h


theorem takeWhile_append_go {p : Char → Bool} {u : List Char}
    (h : (u.takeWhile p).length = u.length) (v : List Char) :
    (u ++ v).takeWhile p = u ++ v.takeWhile p := by
  rw [List.takeWhile_append]
  exact if_pos h


theorem email_transfer (p : Option Char) (a brest b' : List Char) (L : Nat)
    (h : emailMatch p (a ++ '[' :: brest) = some L) (hle : L ≤ a.length)
    (hcond : L = a.length → isWordOpt b'.head? = false) :
    ∃ L', emailMatch p (a ++ b') = some L' := by
  obtain ⟨lc, rest2, R, dtail, letters, j, hlcd, hRd, hdd, hld, hne, hb, hs, hr2,
    hjlt, hj1, hjdot, hjlen, haft, hL, hkR, _, _⟩ := email_take_shape h
  have hna : lc.length + 1 + (j + 1 + letters.length) ≤ a.length := by omega
  have hlcA : lc = a.takeWhile localChar := by
    by_cases hcl : (a.takeWhile localChar).length = a.length
    · exfalso
      have hlca : lc = a := by
        rw [hlcd, takeWhile_append_go hcl,
          show ('[' :: brest).takeWhile localChar = [] from by
            rw [List.takeWhile_cons, if_neg (by decide)], List.append_nil]
      rw [hlca] at hna
      omega
    · rw [hlcd, takeWhile_append_stop hcl]
  have hsn : (a ++ '[' :: brest).drop lc.length = '@' :: rest2 := by
    rw [hs]
    exact List.drop_left _ _
  have hsn2 : a.drop lc.length ++ '[' :: brest = '@' :: rest2 := by
    rw [← List.drop_append_of_le_length (by omega : lc.length ≤ a.length)]
    exact hsn
  obtain ⟨arest, hadn, hr2b⟩ :
      ∃ arest, a.drop lc.length = '@' :: arest ∧ rest2 = arest ++ '[' :: brest := by
    cases hdn : a.drop lc.length with
    | nil =>
      exfalso
      have hlen0 := congrArg List.length hdn
      simp only [List.length_drop, List.length_nil] at hlen0
      omega
    | cons d dr =>
      rw [hdn] at hsn2
      simp only [List.cons_append, List.cons.injEq] at hsn2
      exact ⟨dr, by rw [hsn2.1], hsn2.2.symm⟩
  have harlen : a.length = lc.length + 1 + arest.length := by
    have hh := congrArg List.length hadn
    simp only [List.length_drop, List.length_cons] at hh
    omega
  have hkar : j + 1 + letters.length ≤ arest.length := by omega
  have hclF : (a.takeWhile localChar).length ≠ a.length := by
    rw [← hlcA]
    omega
  have hlc' : (a ++ b').takeWhile localChar = lc := by
    rw [takeWhile_append_stop hclF, ← hlcA]
  have hdγ : (a ++ b').drop lc.length = '@' :: (arest ++ b') := by
    rw [List.drop_append_of_le_length (by omega : lc.length ≤ a.length), hadn,
      List.cons_append]
  have hane : a ≠ [] := by
    intro he
    rw [he] at harlen
    simp only [List.length_nil] at harlen
    omega
  have hbnew : boundary p (a ++ b').head? = true := by
    cases a with
    | nil => exact absurd rfl hane
    | cons a₀ a'' =>
      simp only [List.cons_append, List.head?_cons] at hb ⊢
      exact hb
  suffices hfin : ∃ k2, emailTld ((arest ++ b').takeWhile domainChar)
      (((arest ++ b').drop ((arest ++ b').takeWhile domainChar).length).head?)
      = some k2 by
    obtain ⟨k2, hfin⟩ := hfin
    refine ⟨lc.length + 1 + k2, ?_⟩
    have e1 : ((a ++ b').takeWhile localChar).isEmpty = false := by
      rw [hlc']
      exact List.isEmpty_eq_false.mpr hne
    simp only [emailMatch]
    rw [if_neg (by rw [e1]; exact Bool.false_ne_true)]
    rw [if_neg (by rw [hbnew]; decide)]
    rw [hlc', hdγ]
    have hgoal : (match emailTld ((arest ++ b').takeWhile domainChar)
        (((arest ++ b').drop ((arest ++ b').takeWhile domainChar).length).head?) with
        | some k => some (lc.length + 1 + k)
        | none => none) = some (lc.length + 1 + k2) := by
      rw [hfin]
    exact hgoal
  by_cases cR : (arest.takeWhile domainChar).length = arest.length
  · -- the domain run reaches the replacement site
    have hRA : R = arest := by
      rw [hRd, hr2b, takeWhile_append_go cR,
        show ('[' :: brest).takeWhile domainChar = [] from by
          rw [List.takeWhile_cons, if_neg (by decide)], List.append_nil]
    have hR' : (arest ++ b').takeWhile domainChar
        = arest ++ b'.takeWhile domainChar := takeWhile_append_go cR b'
    have hq'A : (arest ++ b').drop ((arest ++ b').takeWhile domainChar).length
        = b'.drop (b'.takeWhile domainChar).length := by
      rw [hR', List.length_append, List.drop_append_eq_append_drop,
        List.drop_eq_nil_of_le (by omega), List.nil_append]
      congr 1
      omega
    have hj1a : j + 1 ≤ arest.length := by
      rw [hRA] at hjlt
      omega
    have hjlt' : j < (arest ++ b'.takeWhile domainChar).length := by
      simp only [List.length_append]
      omega
    have hdot' : (arest ++ b'.takeWhile domainChar).getD j ' ' = '.' := by
      rw [List.getD_append _ _ _ j (by omega)]
      rw [hRA] at hjdot
      exact hjdot
    have hlar : letters = (arest.drop (j + 1)).takeWhile isAlphaChar := by
      rw [hld, hRA]
    rw [hq'A, hR']
    by_cases cLet : ((arest.drop (j + 1)).takeWhile isAlphaChar).length
        = (arest.drop (j + 1)).length
    · -- the TLD letters reach the replacement site
      have hlex : letters = arest.drop (j + 1) := by
        rw [hlar]
        exact takeWhile_all cLet
      have hkA : j + 1 + letters.length = arest.length := by
        have hh := congrArg List.length hlex
        simp only [List.length_drop] at hh
        omega
      have hLa : L = a.length := by omega
      have hbw : isWordOpt b'.head? = false := hcond hLa
      have hexta : (b'.takeWhile domainChar).takeWhile isAlphaChar = [] := by
        cases hb' : b' with
        | nil => rfl
        | cons e b'' =>
          have hw : isWordChar e = false := by
            rw [hb'] at hbw
            simpa [isWordOpt] using hbw
          rw [List.takeWhile_cons]
          by_cases he : domainChar e = true
          · rw [if_pos he, List.takeWhile_cons,
              if_neg (fun ha => by rw [alpha_word ha] at hw; exact Bool.noConfusion hw)]
          · rw [if_neg he]
            rfl
      have hlet' : ((arest ++ b'.takeWhile domainChar).drop (j + 1)).takeWhile
          isAlphaChar = letters := by
        rw [List.drop_append_of_le_length hj1a, takeWhile_append_go cLet, hexta,
          List.append_nil, ← hlex]
      have hR'drop : (arest ++ b'.takeWhile domainChar).drop (j + 1 + letters.length)
          = b'.takeWhile domainChar := by
        rw [hkA]
        exact List.drop_left _ _
      have haft' : isWordOpt ((b'.takeWhile domainChar).head?.or
          ((b'.drop (b'.takeWhile domainChar).length).head?)) = false := by
        rw [← List.head?_append, ← takeWhile_prefix_eq domainChar b']
        exact hbw
      refine emailTld_some_of_valid hjlt' ?_
      unfold tldValid
      refine ⟨hj1, hdot', by rw [hlet']; exact hjlen, ?_⟩
      rw [hlet', hR'drop]
      exact haft'
    · -- the TLD letters stop inside the kept text
      have hlet' : ((arest ++ b'.takeWhile domainChar).drop (j + 1)).takeWhile
          isAlphaChar = letters := by
        rw [List.drop_append_of_le_length hj1a, takeWhile_append_stop cLet, ← hlar]
      have hklt : j + 1 + letters.length < arest.length := by
        have h1 : letters.length ≤ (arest.drop (j + 1)).length := by
          rw [hlar]
          exact takeWhile_length_le _ _
        have h2 : letters.length ≠ (arest.drop (j + 1)).length := by
          rw [hlar]
          exact cLet
        simp only [List.length_drop] at h1 h2
        omega
      obtain ⟨c0, cr0, hc0⟩ : ∃ c0 cr0,
          arest.drop (j + 1 + letters.length) = c0 :: cr0 := by
        cases hdn3 : arest.drop (j + 1 + letters.length) with
        | nil =>
          exfalso
          have hh := congrArg List.length hdn3
          simp only [List.length_drop, List.length_nil] at hh
          omega
        | cons x xs => exact ⟨x, xs, rfl⟩
      have haftold : isWordOpt (some c0) = false := by
        have hh : (R.drop (j + 1 + letters.length)).head? = some c0 := by
          rw [hRA, hc0]
          rfl
        rw [hh, Option.or_some] at haft
        exact haft
      refine emailTld_some_of_valid hjlt' ?_
      unfold tldValid
      refine ⟨hj1, hdot', by rw [hlet']; exact hjlen, ?_⟩
      rw [hlet', List.drop_append_of_le_length (Nat.le_of_lt hklt), hc0,
        List.cons_append, List.head?_cons, Option.or_some]
      exact haftold
  · -- the domain run stops inside the kept text
    have hRB : R = arest.takeWhile domainChar := by
      rw [hRd, hr2b, takeWhile_append_stop cR]
    have hR' : (arest ++ b').takeWhile domainChar = R := by
      rw [takeWhile_append_stop cR, ← hRB]
    have hRlt : R.length < arest.length :=
      Nat.lt_of_le_of_ne (by rw [hRB]; exact takeWhile_length_le _ _)
        (by rw [hRB]; exact cR)
    have hdt : dtail = arest.drop R.length ++ '[' :: brest := by
      rw [hdd, hr2b, List.drop_append_of_le_length (Nat.le_of_lt hRlt)]
    have hq' : (arest ++ b').drop ((arest ++ b').takeWhile domainChar).length
        = arest.drop R.length ++ b' := by
      rw [hR', List.drop_append_of_le_length (Nat.le_of_lt hRlt)]
    obtain ⟨d0, dr0, hd0⟩ : ∃ d0 dr0, arest.drop R.length = d0 :: dr0 := by
      cases hdn2 : arest.drop R.length with
      | nil =>
        exfalso
        have hh := congrArg List.length hdn2
        simp only [List.length_drop, List.length_nil] at hh
        omega
      | cons x xs => exact ⟨x, xs, rfl⟩
    have hdthead : dtail.head? = some d0 := by
      rw [hdt, hd0]
      rfl
    rw [hq', hd0, List.cons_append, List.head?_cons, hR']
    refine emailTld_some_of_valid hjlt ?_
    unfold tldValid
    refine ⟨hj1, hjdot, by rw [← hld]; exact hjlen, ?_⟩
    rw [hdthead] at haft
    rw [← hld]
    exact haft


theorem emailMatch_facts : MatcherFacts emailMatch := by
  refine ⟨?_, ?_, ?_, ?_, ?_, ?_, ?_⟩
  · intro p s L h
    exact email_le_len h
  · intro p s L h
    exact email_no_brackets h
  · intro p s L h
    exact Or.inr (email_at_mem h)
  · intro p s L h
    exact email_ends_word h
  · intro p s L h
    exact email_end_nonword h
  · intro p s L h
    exact (emailMatch_elim h).2.1
  · intro p a brest b' L h hle hcond
    exact email_transfer p a brest b' L h hle hcond


/-! ### Idempotence of the composite redaction -/

theorem subScan_count0 (m : Option Char → List Char → Option Nat)
    (token : List Char) :
    ∀ (s : List Char) (p : Option Char), (subScan m token p s).2 = 0 →
      (subScan m token p s).1 = s := by
  suffices H : ∀ (n : Nat) (s : List Char), s.length ≤ n → ∀ p : Option Char,
      (subScan m token p s).2 = 0 → (subScan m token p s).1 = s from
    fun s p => H s.length s (Nat.le_refl _) p
  intro n
  induction n with
  | zero =>
    intro s hs p _
    have hnil : s = [] := List.length_eq_zero.mp (Nat.le_zero.mp hs)
    subst hnil
    simp [subScan]
  | succ n ihn =>
    intro s hs p
    match s with
    | [] => intro _; simp [subScan]
    | c :: t =>
      intro hz
      cases hm : m p (c :: t) with
      | none =>
        rw [subScan, hm] at hz ⊢
        simp only at hz ⊢
        have ht := ihn t (by simp only [List.length_cons] at hs; omega) (some c) hz
        rw [ht]
      | some L =>
        match L, hm with
        | 0, hm =>
          rw [subScan, hm] at hz ⊢
          simp only at hz ⊢
          have ht := ihn t (by simp only [List.length_cons] at hs; omega) (some c) hz
          rw [ht]
        | L + 1, hm =>
          rw [subScan, hm] at hz
          simp only at hz
          omega


theorem redact_foldl_fst :
    ∀ (pats : List ((Option Char → List Char → Option Nat) × List Char))
      (acc : List Char × List (List Char)),
      (pats.foldl (fun acc pat =>
        let r := subScan pat.1 pat.2 none acc.1
        if r.2 = 0 then acc
        else (r.1, acc.2 ++ [pat.2 ++ ": ".toList ++ (toString r.2).toList
            ++ " occurrence(s)".toList])) acc).1
      = pats.foldl (fun s pat => (subScan pat.1 pat.2 none s).1) acc.1 := by
  intro pats
  induction pats with
  | nil => intro acc; rfl
  | cons pat pats' ih =>
    intro acc
    rw [List.foldl_cons, List.foldl_cons, ih]
    congr 1
    show (if (subScan pat.1 pat.2 none acc.1).2 = 0 then acc
        else ((subScan pat.1 pat.2 none acc.1).1,
          acc.2 ++ [pat.2 ++ ": ".toList
            ++ (toString (subScan pat.1 pat.2 none acc.1).2).toList
            ++ " occurrence(s)".toList])).1
      = (subScan pat.1 pat.2 none acc.1).1
    by_cases hz : (subScan pat.1 pat.2 none acc.1).2 = 0
    · rw [if_pos hz]
      exact (subScan_count0 _ _ _ _ hz).symm
    · rw [if_neg hz]


theorem redact_pii_fst (s : List Char) :
    (redact_pii s).1 =
      (subScan awsMatch "[AWS_KEY]".toList none
        (subScan cardMatch "[CARD]".toList none
          (subScan ssnMatch "[SSN]".toList none
            (subScan phoneMatch "[PHONE]".toList none
              (subScan emailMatch "[EMAIL]".toList none s).1).1).1).1).1 := by
  have h := redact_foldl_fst piiPatterns (s, [])
  unfold redact_pii
  rw [h]
  simp only [piiPatterns, List.foldl_cons, List.foldl_nil]


theorem redact_chain_nomatch (s : List Char) :
    NoMatchFrom emailMatch none (redact_pii s).1 ∧
    NoMatchFrom phoneMatch none (redact_pii s).1 ∧
    NoMatchFrom ssnMatch none (redact_pii s).1 ∧
    NoMatchFrom cardMatch none (redact_pii s).1 ∧
    NoMatchFrom awsMatch none (redact_pii s).1 := by
  rw [redact_pii_fst s]
  set y1 := (subScan emailMatch "[EMAIL]".toList none s).1 with hy1
  set y2 := (subScan phoneMatch "[PHONE]".toList none y1).1 with hy2
  set y3 := (subScan ssnMatch "[SSN]".toList none y2).1 with hy3
  set y4 := (subScan cardMatch "[CARD]".toList none y3).1 with hy4
  set y5 := (subScan awsMatch "[AWS_KEY]".toList none y4).1 with hy5
  have r1 : ScanRel emailMatch "[EMAIL]".toList none s y1 :=
    subScan_scanRel emailMatch "[EMAIL]".toList emailMatch_facts.ne_zero s none
  have r2 : ScanRel phoneMatch "[PHONE]".toList none y1 y2 :=
    subScan_scanRel phoneMatch "[PHONE]".toList phoneMatch_facts.ne_zero y1 none
  have r3 : ScanRel ssnMatch "[SSN]".toList none y2 y3 :=
    subScan_scanRel ssnMatch "[SSN]".toList ssnMatch_facts.ne_zero y2 none
  have r4 : ScanRel cardMatch "[CARD]".toList none y3 y4 :=
    subScan_scanRel cardMatch "[CARD]".toList cardMatch_facts.ne_zero y3 none
  have r5 : ScanRel awsMatch "[AWS_KEY]".toList none y4 y5 :=
    subScan_scanRel awsMatch "[AWS_KEY]".toList awsMatch_facts.ne_zero y4 none
  have n1e : NoMatchFrom emailMatch none y1 :=
    scan_preserves emailMatch emailMatch "[EMAIL]".toList emailMatch_facts
      emailMatch_facts tokenFacts_email none s y1 r1 (fun a c b _ hm => hm)
  have n2p : NoMatchFrom phoneMatch none y2 :=
    scan_preserves phoneMatch phoneMatch "[PHONE]".toList phoneMatch_facts
      phoneMatch_facts tokenFacts_phone none y1 y2 r2 (fun a c b _ hm => hm)
  have n2e : NoMatchFrom emailMatch none y2 :=
    scan_preserves phoneMatch emailMatch "[PHONE]".toList phoneMatch_facts
      emailMatch_facts tokenFacts_phone none y1 y2 r2 (fun a c b hx _ => n1e a c b hx)
  have n3s : NoMatchFrom ssnMatch none y3 :=
    scan_preserves ssnMatch ssnMatch "[SSN]".toList ssnMatch_facts
      ssnMatch_facts tokenFacts_ssn none y2 y3 r3 (fun a c b _ hm => hm)
  have n3e : NoMatchFrom emailMatch none y3 :=
    scan_preserves ssnMatch emailMatch "[SSN]".toList ssnMatch_facts
      emailMatch_facts tokenFacts_ssn none y2 y3 r3 (fun a c b hx _ => n2e a c b hx)
  have n3p : NoMatchFrom phoneMatch none y3 :=
    scan_preserves ssnMatch phoneMatch "[SSN]".toList ssnMatch_facts
      phoneMatch_facts tokenFacts_ssn none y2 y3 r3 (fun a c b hx _ => n2p a c b hx)
  have n4c : NoMatchFrom cardMatch none y4 :=
    scan_preserves cardMatch cardMatch "[CARD]".toList cardMatch_facts
      cardMatch_facts tokenFacts_card none y3 y4 r4 (fun a c b _ hm => hm)
  have n4e : NoMatchFrom emailMatch none y4 :=
    scan_preserves cardMatch emailMatch "[CARD]".toList cardMatch_facts
      emailMatch_facts tokenFacts_card none y3 y4 r4 (fun a c b hx _ => n3e a c b hx)
  have n4p : NoMatchFrom phoneMatch none y4 :=
    scan_preserves cardMatch phoneMatch "[CARD]".toList cardMatch_facts
      phoneMatch_facts tokenFacts_card none y3 y4 r4 (fun a c b hx _ => n3p a c b hx)
  have n4s : NoMatchFrom ssnMatch none y4 :=
    scan_preserves cardMatch ssnMatch "[CARD]".toList cardMatch_facts
      ssnMatch_facts tokenFacts_card none y3 y4 r4 (fun a c b hx _ => n3s a c b hx)
  have n5a : NoMatchFrom awsMatch none y5 :=
    scan_preserves awsMatch awsMatch "[AWS_KEY]".toList awsMatch_facts
      awsMatch_facts tokenFacts_aws none y4 y5 r5 (fun a c b _ hm => hm)
  have n5e : NoMatchFrom emailMatch none y5 :=
    scan_preserves awsMatch emailMatch "[AWS_KEY]".toList awsMatch_facts
      emailMatch_facts tokenFacts_aws none y4 y5 r5 (fun a c b hx _ => n4e a c b hx)
  have n5p : NoMatchFrom phoneMatch none y5 :=
    scan_preserves awsMatch phoneMatch "[AWS_KEY]".toList awsMatch_facts
      phoneMatch_facts tokenFacts_aws none y4 y5 r5 (fun a c b hx _ => n4p a c b hx)
  have n5s : NoMatchFrom ssnMatch none y5 :=
    scan_preserves awsMatch ssnMatch "[AWS_KEY]".toList awsMatch_facts
      ssnMatch_facts tokenFacts_aws none y4 y5 r5 (fun a c b hx _ => n4s a c b hx)
  have n5c : NoMatchFrom cardMatch none y5 :=
    scan_preserves awsMatch cardMatch "[AWS_KEY]".toList awsMatch_facts
      cardMatch_facts tokenFacts_aws none y4 y5 r5 (fun a c b hx _ => n4c a c b hx)
  exact ⟨n5e, n5p, n5s, n5c, n5a⟩


theorem redact_pii_fixed {y : List Char}
    (h1 : subScan emailMatch "[EMAIL]".toList none y = (y, 0))
    (h2 : subScan phoneMatch "[PHONE]".toList none y = (y, 0))
    (h3 : subScan ssnMatch "[SSN]".toList none y = (y, 0))
    (h4 : subScan cardMatch "[CARD]".toList none y = (y, 0))
    (h5 : subScan awsMatch "[AWS_KEY]".toList none y = (y, 0)) :
    redact_pii y = (y, []) := by
  simp only [redact_pii, piiPatterns, List.foldl_cons, List.foldl_nil,
    h1, h2, h3, h4, h5, eq_self_iff_true, if_true]


/-- C10: `redact_pii` is idempotent — running it on the redacted content of
`redact_pii s` returns that content unchanged with an empty summary, because
no redaction token itself matches, or combines with surrounding text to
create, any of the PII patterns. -/
theorem c10_redact_pii_idempotent (s : List Char) :
    redact_pii (redact_pii s).1 = ((redact_pii s).1, []) := by
  obtain ⟨ne, np, ns, nc, na⟩ := redact_chain_nomatch s
  exact redact_pii_fixed
    (subScan_of_nomatch emailMatch "[EMAIL]".toList (redact_pii s).1 none ne)
    (subScan_of_nomatch phoneMatch "[PHONE]".toList (redact_pii s).1 none np)
    (subScan_of_nomatch ssnMatch "[SSN]".toList (redact_pii s).1 none ns)
    (subScan_of_nomatch cardMatch "[CARD]".toList (redact_pii s).1 none nc)
    (subScan_of_nomatch awsMatch "[AWS_KEY]".toList (redact_pii s).1 none na)

end KiroBot
